import Mathlib

/-! # File-Patcher: byte-level patch generation and application

A shallow embedding of `Gen Patch/Gen Patch/main.cpp` (the generator),
`Gen Patch/ApplyPatch/main.cpp` (the applier) and `CommandLineParser/CommandLineParser.h`
(the command line parser the two `main` functions use).

* A binary file is the list of its bytes; a text file (the patch) is the list of its
  characters.  A path that cannot be opened is `none`.
* `char` is the signed 8-bit character type of the reference build: `static_cast<int>` of a
  byte above 127 is negative.
* The SHA-256 primitive of OpenSSL is a parameter (`Sha256`): the development only depends on
  the way the program drives it.
* The C++ stream operations the program relies on (`std::getline`, `std::stoi`,
  `std::string::find`/`substr`, `seekp`/`put`) are modelled with the state flags that decide
  the control flow of the program.
-/

namespace FilePatcher

/-! ## Bytes and text -/

/-- One byte of a binary file. -/
abbrev Byte := Fin 256

/-- The contents of a text stream. -/
abbrev Text := List Char

/-- The value `static_cast<int>(c)` of a `char` holding the byte `b` (signed character type). -/
def charToInt (b : Byte) : Int :=
  if b.val < 128 then (b.val : Int) else (b.val : Int) - 256

/-- The byte held by `static_cast<char>(v)`: the value reduced modulo 256. -/
def intToChar (v : Int) : Byte :=
  ⟨(v % 256).toNat % 256, Nat.mod_lt _ (by decide)⟩

/-- Text written by `operator<<` for an unsigned integer (decimal). -/
def showNat (n : Nat) : Text := Nat.toDigits 10 n

/-- Text written by `operator<<` for an `int` (decimal, with a minus sign when negative). -/
def showInt (v : Int) : Text :=
  if v < 0 then '-' :: Nat.toDigits 10 v.natAbs else Nat.toDigits 10 v.toNat

/-! ## CalculateFileHash -/

/-- The incremental SHA-256 interface of OpenSSL (`SHA256_Init`, `SHA256_Update`,
`SHA256_Final`); `final` fills an array of `SHA256_DIGEST_LENGTH = 32` bytes. -/
structure Sha256 where
  /-- The type `SHA256_CTX`. -/
  Ctx : Type
  /-- The context after `SHA256_Init`. -/
  init : Ctx
  /-- The call `SHA256_Update(&ctx, buffer, n)` with the `n` bytes read. -/
  update : Ctx → List Byte → Ctx
  /-- The call `SHA256_Final(hash, &ctx)`. -/
  final : Ctx → { l : List Byte // l.length = 32 }

/-- The streaming law of an incremental hash: feeding the data in pieces is feeding it whole. -/
structure Sha256.Streaming (H : Sha256) : Prop where
  update_nil : ∀ c, H.update c [] = c
  update_append : ∀ c a b, H.update (H.update c a) b = H.update c (a ++ b)

/-- The constant `bufferSize`. -/
def bufferSize : Nat := 4096

/-- The loop `while (fileStream.good()) { read; gcount; SHA256_Update }` over the bytes not
yet read.  A `read` that finds fewer than `bufferSize` bytes hits end of file, which ends the
loop after this update; `fuel` bounds the number of iterations. -/
def hashLoop (H : Sha256) : Nat → H.Ctx → List Byte → H.Ctx
  | 0, ctx, _ => ctx
  | fuel + 1, ctx, bytes =>
    let chunk := bytes.take bufferSize
    let ctx1 := H.update ctx chunk
    if chunk.length < bufferSize then ctx1
    else hashLoop H fuel ctx1 (bytes.drop bufferSize)

/-- The buffers handed to `SHA256_Update` by the same loop, in order. -/
def readChunks : Nat → List Byte → List (List Byte)
  | 0, _ => []
  | fuel + 1, bytes =>
    let chunk := bytes.take bufferSize
    if chunk.length < bufferSize then [chunk]
    else chunk :: readChunks fuel (bytes.drop bufferSize)

/-- Number of iterations of the read loop on a file of `n` bytes. -/
def hashIterations (n : Nat) : Nat := n / bufferSize + 1

/-- Two hexadecimal digits for one byte: `std::hex`, `setfill('0')`, `setw(2)`. -/
def hexByte (b : Byte) : Text :=
  let digits := Nat.toDigits 16 b.val
  List.replicate (2 - digits.length) '0' ++ digits

/-- The loop `for (auto byte : hash) hashStream << setw(2) << int(byte)`. -/
def hexString : List Byte → Text
  | [] => []
  | b :: bs => hexByte b ++ hexString bs

/-- `CalculateFileHash`: the empty string when the file cannot be opened, else the
hexadecimal text of the digest of the chunks read. -/
def CalculateFileHash (H : Sha256) (file : Option (List Byte)) : Text :=
  match file with
  | none => []
  | some bytes =>
    hexString (H.final (hashLoop H (hashIterations bytes.length) H.init bytes)).val

/-! ## GeneratePatchFile -/

/-- One difference found by the comparison loop: the values of `offset`, `originalByte` and
`modifiedByte` at the moment the data line is written. -/
structure DiffRecord where
  offset : Nat
  originalByte : Byte
  modifiedByte : Byte
deriving DecidableEq, Repr

/-- The body of the loop after the two `get` calls: `if (originalByte != modifiedByte)`
write a data line. -/
def compareBytes (offset : Nat) (originalByte modifiedByte : Byte) : List DiffRecord :=
  if originalByte ≠ modifiedByte then [⟨offset, originalByte, modifiedByte⟩] else []

/-- The comparison loop once `modifiedFile` has failed: `get` leaves `modifiedByte` as it
was, an uninitialised local whose value at iteration `k` is `jm k`. -/
def diffOriginalRest (jm : Nat → Byte) : List Byte → Nat → List DiffRecord
  | [], _ => []
  | o :: os, offset => compareBytes offset o (jm offset) ++ diffOriginalRest jm os (offset + 1)

/-- The comparison loop once `originalFile` has failed: `originalByte` is the uninitialised
local, of value `jo k` at iteration `k`. -/
def diffModifiedRest (jo : Nat → Byte) : List Byte → Nat → List DiffRecord
  | [], _ => []
  | m :: ms, offset => compareBytes offset (jo offset) m ++ diffModifiedRest jo ms (offset + 1)

/-- The loop `while (true)` of `GeneratePatchFile` over the unread bytes of the two
streams, from the current `offset`.  It stops when both `get` calls fail.  The counter is a
`std::size_t`; a file holds fewer than `2 ^ 64` bytes, so it does not wrap. -/
def diffLoop (jo jm : Nat → Byte) : List Byte → List Byte → Nat → List DiffRecord
  | [], ms, offset => diffModifiedRest jo ms offset
  | o :: os, [], offset => diffOriginalRest jm (o :: os) offset
  | o :: os, m :: ms, offset => compareBytes offset o m ++ diffLoop jo jm os ms (offset + 1)

/-- The characters `patchFile << "Offset: " << offset << ...` writes for one difference,
before `std::endl`. -/
def dataLineText (r : DiffRecord) : Text :=
  "Offset: ".toList ++ showNat r.offset ++ ", Original Byte: ".toList
    ++ showInt (charToInt r.originalByte) ++ ", Modified Byte: ".toList
    ++ showInt (charToInt r.modifiedByte)

/-- The data line written for one difference, with its `std::endl`. -/
def dataLine (r : DiffRecord) : Text := dataLineText r ++ ['\n']

/-- The data lines written in the order of the records. -/
def dataLines : List DiffRecord → Text
  | [] => []
  | r :: rs => dataLine r ++ dataLines rs

/-- The three header lines written before the comparison. -/
def patchHeader (originalHash : Text) : Text :=
  "PATCH FILE".toList ++ ['\n'] ++ "Original File Hash: ".toList ++ originalHash ++ ['\n']
    ++ "--------------------------------------------------".toList ++ ['\n']

/-- How a run of `GeneratePatchFile` ends. -/
inductive GenOutcome where
  /-- `CalculateFileHash` returned the empty string. -/
  | hashFailed
  /-- The patch file could not be opened for writing. -/
  | patchOpenFailed
  /-- One of the two files could not be opened for the comparison. -/
  | compareOpenFailed
  /-- No difference: the patch file is removed. -/
  | noDifferences
  /-- A patch with `bytesWritten` data lines was written. -/
  | generated (bytesWritten : Nat)
deriving DecidableEq, Repr

/-- The outcome of a run and the file found at the output path afterwards. -/
structure GenResult where
  outcome : GenOutcome
  patchFile : Option Text
deriving DecidableEq, Repr

/-- `GeneratePatchFile`.  `original` and `modified` are the contents of the two input files
(`none`: cannot be opened), `patchOpens` tells whether the output path can be opened for
writing and `old` is what the output path holds before the call. -/
def GeneratePatchFile (H : Sha256) (jo jm : Nat → Byte) (original modified : Option (List Byte))
    (patchOpens : Bool) (old : Option Text) : GenResult :=
  let originalHash := CalculateFileHash H original
  if originalHash = [] then ⟨.hashFailed, old⟩
  else if patchOpens = false then ⟨.patchOpenFailed, old⟩
  else
    let header := patchHeader originalHash
    match original, modified with
    | some o, some m =>
      let records := diffLoop jo jm o m 0
      if records = [] then ⟨.noDifferences, none⟩
      else ⟨.generated records.length, some (header ++ dataLines records)⟩
    | _, _ => ⟨.compareOpenFailed, some header⟩

/-! ## Stream and string operations used by ApplyPatchFile -/

/-- An input text stream: the characters not yet read and the `eofbit` and `failbit`
flags. -/
structure IStream where
  rest : Text
  eof : Bool
  fail : Bool
deriving DecidableEq, Repr

/-- A stream freshly opened on a text. -/
def IStream.ofText (t : Text) : IStream := ⟨t, false, false⟩

/-- Scan for the delimiter: the characters before it, and what follows it (`none` when the
end of the text is reached first). -/
def readUntil (delim : Char) : Text → Text × Option Text
  | [] => ([], none)
  | c :: cs =>
    if c = delim then ([], some cs)
    else ((readUntil delim cs).1.cons c, (readUntil delim cs).2)

/-- The call `std::getline(stream, str, delim)`.  When the stream is not `good()` the sentry
fails: `failbit` is set and `str` keeps its value.  Otherwise `str` is replaced by the
characters up to the delimiter, which is extracted and dropped; reaching the end of the text
sets `eofbit`, and `failbit` too when no character was extracted. -/
def getline (s : IStream) (str : Text) (delim : Char) : IStream × Text :=
  if s.eof || s.fail then ({ s with fail := true }, str)
  else
    match readUntil delim s.rest with
    | (line, some rest) => (⟨rest, false, false⟩, line)
    | (line, none) => (⟨[], true, line.isEmpty⟩, line)

/-- The value of `std::string::npos + 2` in `size_t` arithmetic. -/
def nposPlusTwo : Nat := (2 ^ 64 - 1 + 2) % 2 ^ 64

/-- The expression `s.find(c) + 2` in `size_t` arithmetic (`find` gives `npos` when the
character does not occur). -/
def findPlusTwo (s : Text) (c : Char) : Nat :=
  if c ∈ s then (s.indexOf c + 2) % 2 ^ 64 else nposPlusTwo

/-- The call `s.substr(pos)`: `none` stands for the `std::out_of_range` thrown when `pos`
exceeds the length. -/
def substr (s : Text) (pos : Nat) : Option Text :=
  if pos > s.length then none else some (s.drop pos)

/-- Result of `std::stoi`. -/
inductive StoiResult where
  | ok (v : Int)
  /-- No digit where a number is expected: `std::invalid_argument`. -/
  | invalidArgument
  /-- The number does not fit an `int`: `std::out_of_range`. -/
  | outOfRange
deriving DecidableEq, Repr

/-- The characters `isspace` accepts in the "C" locale. -/
def isSpace (c : Char) : Bool :=
  c = ' ' || c = '\t' || c = '\n' || c = '\x0b' || c = '\x0c' || c = '\r'

/-- The value of a run of decimal digits. -/
def digitsValue (ds : Text) : Nat :=
  ds.foldl (fun acc c => acc * 10 + (c.toNat - 48)) 0

/-- The call `std::stoi(s)` (base 10): leading white space is skipped, one sign is accepted,
the longest run of digits is converted and what follows it is ignored. -/
def stoi (s : Text) : StoiResult :=
  let s1 := s.dropWhile isSpace
  let signed : Bool × Text :=
    match s1 with
    | '-' :: t => (true, t)
    | '+' :: t => (false, t)
    | _ => (false, s1)
  let ds := signed.2.takeWhile Char.isDigit
  if ds = [] then .invalidArgument
  else
    let v : Int := if signed.1 then -(digitsValue ds : Int) else (digitsValue ds : Int)
    if v < -(2 : Int) ^ 31 ∨ (2 : Int) ^ 31 - 1 < v then .outOfRange else .ok v

/-- Write one byte at a position of a file; a position past the end extends the file, the
gap being filled with zero bytes. -/
def writeAt (file : List Byte) (pos : Nat) (b : Byte) : List Byte :=
  if pos < file.length then file.set pos b
  else file ++ List.replicate (pos - file.length) 0 ++ [b]

/-- The `std::fstream` opened on the target: the bytes that have reached the file, the put
position, the byte still in the stream buffer (with its position) and `failbit`. -/
structure FStream where
  disk : List Byte
  pos : Nat
  pending : Option (Nat × Byte)
  fail : Bool
deriving DecidableEq, Repr

/-- Write the buffered byte, if any, to the file. -/
def FStream.flush (f : FStream) : FStream :=
  match f.pending with
  | none => f
  | some (p, b) => { f with disk := writeAt f.disk p b, pending := none }

/-- The call `seekp(offset)`: nothing on a failed stream; otherwise the buffer is written
out to the file and the position is set, a negative position setting `failbit`. -/
def FStream.seekp (f : FStream) (offset : Int) : FStream :=
  if f.fail then f
  else
    let g := f.flush
    if offset < 0 then { g with fail := true } else { g with pos := offset.toNat }

/-- The call `put(c)`: nothing on a failed stream; otherwise the byte goes to the stream
buffer at the put position.  In `ApplyPatchFile` every `put` follows a `seekp`, so the buffer
never holds more than one byte. -/
def FStream.put (f : FStream) (b : Byte) : FStream :=
  if f.fail then f
  else
    let g := f.flush
    { g with pending := some (g.pos, b), pos := g.pos + 1 }

/-! ## ApplyPatchFile -/

/-- The six `std::getline` calls on `std::istringstream iss(patchEntry)`: the final values of
`offsetStr` and `modifiedByteStr`. -/
def splitEntry (patchEntry : Text) : Text × Text :=
  let iss := IStream.ofText patchEntry
  let r1 := getline iss [] ':'
  let r2 := getline r1.1 r1.2 ','
  let r3 := getline r2.1 [] ':'
  let r4 := getline r3.1 r3.2 ','
  let r5 := getline r4.1 [] ':'
  let r6 := getline r5.1 r5.2 '\n'
  (r2.2, r6.2)

/-- An exception that leaves `ApplyPatchFile`; nothing catches it, so the process is
terminated. -/
inductive Uncaught where
  | invalidArgument
  | outOfRange
deriving DecidableEq, Repr

/-- The two `std::stoi` conversions of a data line: the `int offset` and the
`char modifiedByte`. -/
def parseEntry (patchEntry : Text) : Except Uncaught (Int × Byte) :=
  match stoi (splitEntry patchEntry).1 with
  | .invalidArgument => .error .invalidArgument
  | .outOfRange => .error .outOfRange
  | .ok offset =>
    match stoi (splitEntry patchEntry).2 with
    | .invalidArgument => .error .invalidArgument
    | .outOfRange => .error .outOfRange
    | .ok v => .ok (offset, intToChar v)

/-- How a run of `ApplyPatchFile` ends. -/
inductive ApplyOutcome where
  /-- The patch file could not be opened. -/
  | patchOpenFailed
  /-- The recorded hash differs from the hash of the target. -/
  | hashMismatch
  /-- The target could not be opened for reading and writing. -/
  | targetOpenFailed
  /-- The loop ran to the end of the patch file; `bytesApplied` is its counter. -/
  | applied (bytesApplied : Nat)
  /-- An exception left the function after `bytesApplied` data lines. -/
  | terminated (e : Uncaught) (bytesApplied : Nat)
deriving DecidableEq, Repr

/-- The outcome of a run, the target file as found afterwards, and the byte that was still
in the stream buffer when an exception terminated the process (`none` otherwise). -/
structure ApplyResult where
  outcome : ApplyOutcome
  target : Option (List Byte)
  unflushed : Option (Nat × Byte)
deriving DecidableEq, Repr

/-- The loop `while (std::getline(patchFile, patchEntry))` with its body, followed by
`originalFile.close()`.  `fuel` bounds the number of iterations. -/
def applyLoop : Nat → IStream → Text → FStream → Nat → ApplyResult
  | 0, _, _, f, bytesApplied => ⟨.applied bytesApplied, some f.flush.disk, none⟩
  | fuel + 1, s, patchEntry, f, bytesApplied =>
    let r := getline s patchEntry '\n'
    if r.1.fail then ⟨.applied bytesApplied, some f.flush.disk, none⟩
    else
      match parseEntry r.2 with
      | .error e => ⟨.terminated e bytesApplied, some f.disk, f.pending⟩
      | .ok (offset, modifiedByte) =>
        applyLoop fuel r.1 r.2 ((f.seekp offset).put modifiedByte) (bytesApplied + 1)

/-- The two `std::getline(patchFile, headerLine)` calls at the head of `ApplyPatchFile`:
the stream after them and the value of `headerLine`. -/
def readHeader (text : Text) : IStream × Text :=
  let r1 := getline (IStream.ofText text) [] '\n'
  getline r1.1 r1.2 '\n'

/-- The value of `originalHash = headerLine.substr(headerLine.find(':') + 2)`; `none` when
`substr` throws `std::out_of_range`. -/
def recordedHash (text : Text) : Option Text :=
  substr (readHeader text).2 (findPlusTwo (readHeader text).2 ':')

/-- `ApplyPatchFile`.  `target` is the file to patch (`none`: it cannot be opened),
`targetOpens` tells whether it can be opened for reading and writing, `patch` is the text of
the patch file (`none`: it cannot be opened). -/
def ApplyPatchFile (H : Sha256) (target : Option (List Byte)) (targetOpens : Bool)
    (patch : Option Text) : ApplyResult :=
  match patch with
  | none => ⟨.patchOpenFailed, target, none⟩
  | some text =>
    let r2 := readHeader text
    match recordedHash text with
    | none => ⟨.terminated .outOfRange 0, target, none⟩
    | some originalHash =>
      if originalHash ≠ CalculateFileHash H target then ⟨.hashMismatch, target, none⟩
      else
        match target, targetOpens with
        | some bytes, true =>
          let r3 := getline r2.1 r2.2 '\n'
          applyLoop (r3.1.rest.length + 1) r3.1 [] ⟨bytes, 0, none, false⟩ 0
        | _, _ => ⟨.targetOpenFailed, target, none⟩

/-! ## A small accumulator for concrete runs -/

/-- A toy instance of the hash interface: the context is the data fed so far and the digest
is made of its length and of the sum of its bytes. -/
def toySha : Sha256 where
  Ctx := List Byte
  init := []
  update c bs := c ++ bs
  final c :=
    ⟨[(c.length : Byte), ((c.map Fin.val).sum : Byte)] ++ List.replicate 30 0,
      by simp⟩

/-! ## Auxiliary definitions for the statements -/

/-- The edits of a list of records, issued in order on the stream of the target. -/
def putRecords (f : FStream) : List DiffRecord → FStream
  | [] => f
  | r :: rs => putRecords ((f.seekp r.offset).put r.modifiedByte) rs

/-- The differences between two files of equal length as the specification words them: one
triple `(i, O[i], M[i])` for each position `i` below the length with `O[i] ≠ M[i]`, by
increasing position. -/
def expectedRecords (O M : List Byte) : List DiffRecord :=
  ((List.range O.length).filter (fun i => O.getD i 0 ≠ M.getD i 0)).map
    (fun i => ⟨i, O.getD i 0, M.getD i 0⟩)

/-- The uninitialised locals of the comparison loop read as zero (used in concrete runs). -/
def zeroJunk : Nat → Byte := fun _ => 0

/-- The file "ABCD". -/
def abcd : List Byte := [0x41, 0x42, 0x43, 0x44]

/-- The file "AZCD". -/
def azcd : List Byte := [0x41, 0x5A, 0x43, 0x44]

/-- A file of `2 ^ 31` zero bytes. -/
def zeros31 : List Byte := List.replicate (2 ^ 31) 0

/-- The file "ABCD" with one more byte appended. -/
def abcde : List Byte := abcd ++ [0x45]

/-- The patch the generator writes from "ABCD" and "AZCD" with the accumulator `toySha`. -/
def abcdPatch : Text :=
  ("PATCH FILE\n" ++
    "Original File Hash: 040a000000000000000000000000000000000000000000000000000000000000\n" ++
    "--------------------------------------------------\n" ++
    "Offset: 1, Original Byte: 66, Modified Byte: 90\n").toList

/-- The decimal text of a byte under the signed-character convention, as the specification
words it: the value itself up to 127, the negative integer `v - 256` above. -/
def specSignedByte (v : Byte) : Text :=
  if v.val ≤ 127 then (toString v.val).toList else (toString ((v.val : Int) - 256)).toList

/-- One data line of the patch format, as the specification words it. -/
def specDataLine (r : DiffRecord) : Text :=
  "Offset: ".toList ++ (toString r.offset).toList ++ ", Original Byte: ".toList
    ++ specSignedByte r.originalByte ++ ", Modified Byte: ".toList
    ++ specSignedByte r.modifiedByte ++ "\n".toList

/-- The patch format, as the specification words it: the magic line, the digest line, a line
of 50 dashes, then one data line per record, in order. -/
def specPatchText (h : Text) (recs : List DiffRecord) : Text :=
  "PATCH FILE\n".toList ++ "Original File Hash: ".toList ++ h ++ "\n".toList
    ++ List.replicate 50 '-' ++ "\n".toList ++ (recs.map specDataLine).flatten

/-- The edits `(offset, modifiedByte)` of a list of parsed data lines, issued in order on the
stream of the target. -/
def putEdits (f : FStream) : List (Int × Byte) → FStream
  | [] => f
  | e :: es => putEdits ((f.seekp e.1).put e.2) es

/-- The text made of the given lines, each followed by a newline. -/
def textOfLines : List Text → Text
  | [] => []
  | l :: ls => l ++ '\n' :: textOfLines ls

/-- The patch stream when `ApplyPatchFile` enters the loop over the data lines: after the two
header lines and the line skipped before the loop. -/
def dataStream (text : Text) : IStream :=
  (getline (readHeader text).1 (readHeader text).2 '\n').1

/-- A patch for "ABCD" (accumulator `toySha`) with two well-formed data lines followed by a
data line whose offset field is not a number. -/
def abcdBadOffsetPatch : Text :=
  ("PATCH FILE\n" ++
    "Original File Hash: 040a000000000000000000000000000000000000000000000000000000000000\n" ++
    "--------------------------------------------------\n" ++
    "Offset: 0, Original Byte: 65, Modified Byte: 88\n" ++
    "Offset: 1, Original Byte: 66, Modified Byte: 89\n" ++
    "Offset: x, Original Byte: 67, Modified Byte: 90\n").toList

/-- A patch for "ABCD" (accumulator `toySha`) without the magic line, without the label of the
digest line and without the separator line. -/
def abcdNoMagicPatch : Text :=
  ("GARBAGE\n" ++
    "no label:x040a000000000000000000000000000000000000000000000000000000000000\n" ++
    "\n" ++
    "Offset: 1, Original Byte: 66, Modified Byte: 90\n").toList

/-- The lines successive `std::getline` calls read from a good stream holding the given
text: a final newline does not open one more line. -/
def splitLines : Text → List Text
  | [] => []
  | c :: cs =>
    if c = '\n' then [] :: splitLines cs
    else
      match splitLines cs with
      | [] => [[c]]
      | l :: ls => (c :: l) :: ls

/-- The data lines the loop of `ApplyPatchFile` is going to read from a patch file. -/
def dataEntries (text : Text) : List Text :=
  if (dataStream text).eof || (dataStream text).fail then [] else splitLines (dataStream text).rest

/-- The body of the loop of `ApplyPatchFile` run on a list of data lines, followed by
`originalFile.close()`: the loop of `applyLoop` without its stream. -/
def runEntries : List Text → FStream → Nat → ApplyResult
  | [], f, bytesApplied => ⟨.applied bytesApplied, some f.flush.disk, none⟩
  | patchEntry :: rest, f, bytesApplied =>
    match parseEntry patchEntry with
    | .error e => ⟨.terminated e bytesApplied, some f.disk, f.pending⟩
    | .ok (offset, modifiedByte) =>
      runEntries rest ((f.seekp offset).put modifiedByte) (bytesApplied + 1)

/-- The target file after a list of edits `(offset, modifiedByte)` written in order. -/
def writeEdits (file : List Byte) (edits : List (Nat × Byte)) : List Byte :=
  edits.foldl (fun d e => writeAt d e.1 e.2) file

/-- A patch for "ABCD" (accumulator `toySha`) with two data lines, for the offsets 1 and 3. -/
def abcdTwoEditsPatch : Text :=
  ("PATCH FILE\n" ++
    "Original File Hash: 040a000000000000000000000000000000000000000000000000000000000000\n" ++
    "--------------------------------------------------\n" ++
    "Offset: 1, Original Byte: 66, Modified Byte: 90\n" ++
    "Offset: 3, Original Byte: 68, Modified Byte: 88\n").toList

/-- The patch `abcdTwoEditsPatch` with its two data lines in the other order. -/
def abcdTwoEditsSwapped : Text :=
  ("PATCH FILE\n" ++
    "Original File Hash: 040a000000000000000000000000000000000000000000000000000000000000\n" ++
    "--------------------------------------------------\n" ++
    "Offset: 3, Original Byte: 68, Modified Byte: 88\n" ++
    "Offset: 1, Original Byte: 66, Modified Byte: 90\n").toList

/-- The lowercase hexadecimal digit of a value below 16. -/
def lowerHexDigit (k : Nat) : Char := "0123456789abcdef".toList.getD k '0'

/-- The two-digit text of a byte as the specification words it: high digit, then low digit,
lowercase, zero padded. -/
def specHexByte (b : Byte) : Text := [lowerHexDigit (b.val / 16), lowerHexDigit (b.val % 16)]

/-- The value of a lowercase hexadecimal digit. -/
def hexDigitValue (c : Char) : Nat := "0123456789abcdef".toList.indexOf c

/-- The bytes spelled by a text of hexadecimal digit pairs. -/
def unhexString : Text → List Byte
  | hi :: lo :: rest =>
    ⟨(hexDigitValue hi * 16 + hexDigitValue lo) % 256, Nat.mod_lt _ (by decide)⟩
      :: unhexString rest
  | _ => []

/-- The uninitialised local of the comparison loop when it keeps the last byte read from the
file (zero for an empty file). -/
def staleJunk (file : List Byte) : Nat → Byte := fun _ => file.getLastD 0

/-! ## CommandLineParser -/

/-- The `struct Option` of `CommandLineParser`. -/
structure ParserOption where
  strName : Text
  strLongName : Text
  strDescription : Text
  bTakesValue : Bool
  bProvided : Bool
  strValue : Text
deriving DecidableEq, Repr

/-- The `struct Argument` of `CommandLineParser`. -/
structure ParserArgument where
  strName : Text
  strDescription : Text
  strValue : Text
deriving DecidableEq, Repr

/-- The data members of `CommandLineParser`. -/
structure CommandLineParser where
  m_vecProvidedArguments : List Text
  m_vecOptions : List ParserOption
  m_vecArguments : List ParserArgument
deriving DecidableEq, Repr

/-- The constructor: the command line without its first element (the program name). -/
def CommandLineParser.create (argv : List Text) : CommandLineParser :=
  ⟨argv.drop 1, [], []⟩

/-- `AddOption(strName, strLongName, strDescription, bTakesValue)`; the members left out of
the initialiser list are value-initialised. -/
def CommandLineParser.AddOption (p : CommandLineParser) (strName strLongName strDescription : Text)
    (bTakesValue : Bool) : CommandLineParser :=
  { p with m_vecOptions :=
      p.m_vecOptions ++ [⟨strName, strLongName, strDescription, bTakesValue, false, []⟩] }

/-- `AddArgument(strName, strDescription)`. -/
def CommandLineParser.AddArgument (p : CommandLineParser) (strName strDescription : Text) :
    CommandLineParser :=
  { p with m_vecArguments := p.m_vecArguments ++ [⟨strName, strDescription, []⟩] }

/-- The loop of `OptionExists` over the options. -/
def optionExists (strKey : Text) : List ParserOption → Bool
  | [] => false
  | opt :: rest =>
    if strKey = opt.strName ∨ strKey = opt.strLongName then opt.bProvided
    else optionExists strKey rest

/-- `OptionExists(strKey)`. -/
def CommandLineParser.OptionExists (p : CommandLineParser) (strKey : Text) : Bool :=
  optionExists strKey p.m_vecOptions

/-- The loop of `GetArgumentValue` over the arguments. -/
def getArgumentValue (strKey : Text) : List ParserArgument → Text
  | [] => []
  | arg :: rest =>
    if strKey = arg.strName ∧ arg.strValue ≠ [] then arg.strValue
    else getArgumentValue strKey rest

/-- `GetArgumentValue(strKey)`. -/
def CommandLineParser.GetArgumentValue (p : CommandLineParser) (strKey : Text) : Text :=
  getArgumentValue strKey p.m_vecArguments

/-- The test `strOpt.size() >= 1 && (strOpt.substr(0, 1) == "-" || strOpt.substr(0, 2) == "--")`
of `ParseOptions`. -/
def isOptionToken (strOpt : Text) : Bool :=
  decide (1 ≤ strOpt.length) && (strOpt.take 1 == ['-'] || strOpt.take 2 == ['-', '-'])

/-- The `for` loop of `ParseOptions` over `m_vecOptions` for the token `strOpt`; `value` is
the token after it, if any.  Result: the options, `bFound`, and whether the value token has
been erased. -/
def matchOptions (strOpt : Text) (value : Option Text) :
    List ParserOption → List ParserOption × Bool × Bool
  | [] => ([], false, false)
  | opt :: rest =>
    if opt.strName ≠ strOpt ∧ opt.strLongName ≠ strOpt then
      ((matchOptions strOpt value rest).1.cons opt, (matchOptions strOpt value rest).2)
    else if opt.bTakesValue then
      match value with
      | none =>
        ((matchOptions strOpt value rest).1.cons { opt with bProvided := true },
          (matchOptions strOpt value rest).2)
      | some v => ({ opt with bProvided := true, strValue := v } :: rest, true, true)
    else ({ opt with bProvided := true } :: rest, true, false)

/-- The `while` loop of `ParseOptions`: `index` is the position of `ArgsIterator`; `fuel`
bounds the number of iterations. -/
def parseOptionsLoop : Nat → List Text → Nat → List ParserOption → List Text × List ParserOption
  | 0, vec, _, opts => (vec, opts)
  | fuel + 1, vec, index, opts =>
    match vec[index]? with
    | none => (vec, opts)
    | some strOpt =>
      if !isOptionToken strOpt then parseOptionsLoop fuel vec (index + 1) opts
      else
        let found := matchOptions strOpt vec[index + 1]? opts
        let vec1 := if found.2.2 then vec.eraseIdx (index + 1) else vec
        parseOptionsLoop fuel (vec1.eraseIdx index) 0 found.1

/-- `ParseOptions(m_vecProvidedArguments)`. -/
def CommandLineParser.ParseOptions (p : CommandLineParser) : CommandLineParser :=
  let n := p.m_vecProvidedArguments.length
  let r := parseOptionsLoop ((n + 1) * (n + 1)) p.m_vecProvidedArguments 0 p.m_vecOptions
  { p with m_vecProvidedArguments := r.1, m_vecOptions := r.2 }

/-- The `for` loop of `ParseArguments`: each argument takes the first provided token, which
is erased.  The size test before the loop excludes the case of a missing token. -/
def bindArguments : List ParserArgument → List Text → List ParserArgument
  | [], _ => []
  | arg :: rest, v :: provided => { arg with strValue := v } :: bindArguments rest provided
  | arg :: rest, [] => arg :: rest

/-- `ParseArguments(m_vecProvidedArguments)`: the returned flag and the parser afterwards. -/
def CommandLineParser.ParseArguments (p : CommandLineParser) : Bool × CommandLineParser :=
  if p.m_vecArguments.length > p.m_vecProvidedArguments.length then (false, p)
  else
    (true, { p with m_vecArguments := bindArguments p.m_vecArguments p.m_vecProvidedArguments,
                    m_vecProvidedArguments := [] })

/-- `Parse()`. -/
def CommandLineParser.Parse (p : CommandLineParser) : Bool × CommandLineParser :=
  p.ParseOptions.ParseArguments

/-- Output of `std::left << std::setw(w) << s`. -/
def padRight (w : Nat) (s : Text) : Text := s ++ List.replicate (w - s.length) ' '

/-- The lines `PrintHelp` prints for the options. -/
def helpOptionLines : List ParserOption → Text
  | [] => []
  | opt :: rest =>
    "  ".toList ++ padRight 5 opt.strName
      ++ (if opt.strLongName ≠ [] then padRight 15 opt.strLongName else padRight 20 [])
      ++ opt.strDescription ++ (if opt.bTakesValue then " (Takes a value)".toList else [])
      ++ ['\n'] ++ helpOptionLines rest

/-- The lines `PrintHelp` prints for the arguments. -/
def helpArgumentLines : List ParserArgument → Text
  | [] => []
  | arg :: rest =>
    "  ".toList ++ padRight 20 arg.strName ++ arg.strDescription ++ ['\n']
      ++ helpArgumentLines rest

/-- The text `PrintHelp()` writes on the standard output. -/
def CommandLineParser.PrintHelp (p : CommandLineParser) : Text :=
  "Options:\n".toList ++ helpOptionLines p.m_vecOptions
    ++ "Arguments:\n".toList ++ helpArgumentLines p.m_vecArguments

/-! ## The two `main` functions -/

/-- The value of `EXIT_SUCCESS`. -/
def EXIT_SUCCESS : Nat := 0

/-- The value of `EXIT_FAILURE`. -/
def EXIT_FAILURE : Nat := 1

/-- What a `main` does up to its return: the exit code, the text written on the standard
output and on the standard error by `main` and the parser, the value given to `g_bVerbose`
and the paths handed to `GeneratePatchFile` or `ApplyPatchFile` (`none`: no call). -/
structure MainResult where
  exitCode : Nat
  stdout : Text
  stderr : Text
  verbose : Bool
  call : Option (List Text)
deriving DecidableEq, Repr

/-- The part of `main` after the parser is set up, common to the two programs; `names` are
the positional arguments whose values are passed to the patch function. -/
def runMain (parser : CommandLineParser) (names : List Text) : MainResult :=
  let parsed := parser.Parse
  if parsed.1 = false then
    ⟨EXIT_FAILURE,
      "Not enough arguments passed to fill the required arguments\n".toList
        ++ parsed.2.PrintHelp,
      "Argument parse failed.\n".toList, false, none⟩
  else if parsed.2.OptionExists "-h".toList then
    ⟨EXIT_SUCCESS, parsed.2.PrintHelp, [], false, none⟩
  else
    let verbose := parsed.2.OptionExists "-v".toList
    ⟨EXIT_SUCCESS, if verbose then "Verbose mode enabled\n".toList else [], [], verbose,
      some (names.map parsed.2.GetArgumentValue)⟩

/-- The `main` of the generator. -/
def GenPatch.main (argv : List Text) : MainResult :=
  let parser := CommandLineParser.create argv
  let parser := parser.AddOption "-h".toList "--help".toList
    "Display this help message and exit".toList false
  let parser := parser.AddOption "-v".toList "--verbose".toList "Enable verbose mode".toList false
  let parser := parser.AddArgument "original_file".toList "The source file".toList
  let parser := parser.AddArgument "modified_file".toList "The file to compare to".toList
  let parser := parser.AddArgument "output_file".toList
    "The file to output the patch file to".toList
  runMain parser ["original_file".toList, "modified_file".toList, "output_file".toList]

/-- The `main` of the applier. -/
def ApplyPatch.main (argv : List Text) : MainResult :=
  let parser := CommandLineParser.create argv
  let parser := parser.AddOption "-h".toList "--help".toList
    "Display this help message and exit".toList false
  let parser := parser.AddOption "-v".toList "--verbose".toList "Enable verbose mode".toList false
  let parser := parser.AddArgument "target_file".toList "The to be patched".toList
  let parser := parser.AddArgument "patch_file".toList
    "The patch file containing the bytes to be patched".toList
  runMain parser ["target_file".toList, "patch_file".toList]

/-- The tokens of a command line that do not begin with '-', in their order. -/
def positionalTokens (tokens : List Text) : List Text :=
  tokens.filter (fun t => t.head? ≠ some '-')

/-- A parser with the options and arguments of the generator on the command line
`GenPatch a -x b --verbose c d`. -/
def exampleParser : CommandLineParser :=
  let parser := CommandLineParser.create ["GenPatch".toList, "a".toList, "-x".toList,
    "b".toList, "--verbose".toList, "c".toList, "d".toList]
  let parser := parser.AddOption "-h".toList "--help".toList
    "Display this help message and exit".toList false
  let parser := parser.AddOption "-v".toList "--verbose".toList "Enable verbose mode".toList false
  let parser := parser.AddArgument "original_file".toList "The source file".toList
  let parser := parser.AddArgument "modified_file".toList "The file to compare to".toList
  parser.AddArgument "output_file".toList "The file to output the patch file to".toList

/-- The edits parsed from data lines with their offsets as positions of the file. -/
def natEdits (edits : List (Int × Byte)) : List (Nat × Byte) :=
  edits.map (fun e => (e.1.toNat, e.2))

/-- The edits that come before the first edit with a negative offset. -/
def writtenEdits (edits : List (Int × Byte)) : List (Nat × Byte) :=
  natEdits (edits.takeWhile (fun e => decide (0 ≤ e.1)))

/-- What `std::stoi` is left with after one optional sign. -/
def afterSign : Text → Text
  | '-' :: t => t
  | '+' :: t => t
  | s => s

/-- The records past the end of the original file, as the amended policy words them: at each
position from `k` to the end of the modified file, the byte of the modified file against the
value `jo` of the unassigned `originalByte`, one record where the two differ. -/
def pastOriginalEnd (jo : Nat → Byte) (M : List Byte) (k : Nat) : List DiffRecord :=
  ((List.range (M.length - k)).filter (fun j => jo (k + j) ≠ M.getD (k + j) 0)).map
    (fun j => ⟨k + j, jo (k + j), M.getD (k + j) 0⟩)

/-- The records past the end of the modified file: at each position from `k` to the end of
the original file, the byte of the original file against the value `jm` of the unassigned
`modifiedByte`, one record where the two differ. -/
def pastModifiedEnd (jm : Nat → Byte) (O : List Byte) (k : Nat) : List DiffRecord :=
  ((List.range (O.length - k)).filter (fun j => O.getD (k + j) 0 ≠ jm (k + j))).map
    (fun j => ⟨k + j, O.getD (k + j) 0, jm (k + j)⟩)

/-- A patch for "ABCD" (accumulator `toySha`) with data lines for the offsets 0, 1 and
`2 ^ 31`. -/
def abcdBigOffsetLast : Text :=
  ("PATCH FILE\n" ++
    "Original File Hash: 040a000000000000000000000000000000000000000000000000000000000000\n" ++
    "--------------------------------------------------\n" ++
    "Offset: 0, Original Byte: 65, Modified Byte: 88\n" ++
    "Offset: 1, Original Byte: 66, Modified Byte: 89\n" ++
    "Offset: 2147483648, Original Byte: 0, Modified Byte: 90\n").toList

/-- The patch `abcdBigOffsetLast` with the data line for the offset `2 ^ 31` first. -/
def abcdBigOffsetFirst : Text :=
  ("PATCH FILE\n" ++
    "Original File Hash: 040a000000000000000000000000000000000000000000000000000000000000\n" ++
    "--------------------------------------------------\n" ++
    "Offset: 2147483648, Original Byte: 0, Modified Byte: 90\n" ++
    "Offset: 0, Original Byte: 65, Modified Byte: 88\n" ++
    "Offset: 1, Original Byte: 66, Modified Byte: 89\n").toList

/-! # Theorems -/


/-! ## Decimal text -/

theorem digitChar_isDigit (k : Nat) (h : k < 10) : (Nat.digitChar k).isDigit = true := by
  interval_cases k <;> decide

theorem digitChar_value (k : Nat) (h : k < 10) : (Nat.digitChar k).toNat - 48 = k := by
  interval_cases k <;> decide

theorem toDigitsCore_isDigit (fuel : Nat) : ∀ (n : Nat) (ds : Text),
    (∀ c ∈ ds, c.isDigit = true) → ∀ c ∈ Nat.toDigitsCore 10 fuel n ds, c.isDigit = true := by
  induction fuel with
  | zero => intro n ds h; simpa [Nat.toDigitsCore] using h
  | succ fuel ih =>
    intro n ds h
    have hd : ∀ c ∈ Nat.digitChar (n % 10) :: ds, c.isDigit = true := by
      intro c hc
      rcases List.mem_cons.1 hc with rfl | hc
      · exact digitChar_isDigit _ (Nat.mod_lt _ (by decide))
      · exact h c hc
    simp only [Nat.toDigitsCore]
    split
    · exact hd
    · exact ih _ _ hd

theorem toDigitsCore_length_le (b fuel : Nat) : ∀ (n : Nat) (ds : Text),
    ds.length ≤ (Nat.toDigitsCore b fuel n ds).length := by
  induction fuel with
  | zero => intro n ds; simp [Nat.toDigitsCore]
  | succ fuel ih =>
    intro n ds
    simp only [Nat.toDigitsCore]
    split
    · simp
    · exact le_trans (by simp) (ih _ _)

theorem toDigits_ne_nil (b n : Nat) : Nat.toDigits b n ≠ [] := by
  intro h
  have h1 : ([] : Text).length < (Nat.toDigits b n).length := by
    simp only [Nat.toDigits, Nat.toDigitsCore]
    split
    · simp
    · exact lt_of_lt_of_le (by simp) (toDigitsCore_length_le _ _ _ _)
  rw [h] at h1
  exact absurd h1 (by simp)

theorem toDigitsCore_value (fuel : Nat) : ∀ (n : Nat) (ds : Text), n < fuel →
    (Nat.toDigitsCore 10 fuel n ds).foldl (fun acc c => acc * 10 + (c.toNat - 48)) 0
      = ds.foldl (fun acc c => acc * 10 + (c.toNat - 48)) n := by
  induction fuel with
  | zero => intro n ds h; omega
  | succ fuel ih =>
    intro n ds h
    simp only [Nat.toDigitsCore]
    split
    · rename_i h0
      simp only [List.foldl_cons, digitChar_value _ (Nat.mod_lt n (by decide : 0 < 10))]
      congr 1
      omega
    · rename_i h0
      rw [ih (n / 10) _ (by omega)]
      simp only [List.foldl_cons, digitChar_value _ (Nat.mod_lt n (by decide : 0 < 10))]
      congr 1
      omega

theorem showNat_isDigit (n : Nat) : ∀ c ∈ showNat n, c.isDigit = true :=
  toDigitsCore_isDigit _ _ _ (by simp)

theorem digitsValue_showNat (n : Nat) : digitsValue (showNat n) = n := by
  simp only [digitsValue, showNat, Nat.toDigits]
  rw [toDigitsCore_value _ _ _ (Nat.lt_succ_self n)]
  rfl

theorem isDigit_not_space (c : Char) (h : c.isDigit = true) : isSpace c = false := by
  simp only [Char.isDigit, Bool.and_eq_true, decide_eq_true_eq] at h
  have h1 : (48 : Nat) ≤ c.toNat := by
    have := h.1; simpa [Char.toNat] using (UInt32.le_def.1 this)
  simp only [isSpace, Bool.or_eq_false_iff, decide_eq_false_iff_not]
  refine ⟨⟨⟨⟨⟨?_, ?_⟩, ?_⟩, ?_⟩, ?_⟩, ?_⟩ <;> (rintro rfl; revert h1; decide)

theorem takeWhile_all (p : Char → Bool) (l : Text) (h : ∀ c ∈ l, p c = true) :
    l.takeWhile p = l := by
  induction l with
  | nil => rfl
  | cons a l ih =>
    simp only [List.takeWhile_cons, h a (List.mem_cons_self _ _), if_true]
    rw [ih (fun c hc => h c (List.mem_cons_of_mem _ hc))]

/-- The conversion `std::stoi` of a blank followed by a run of digits. -/
theorem stoi_blank_digits (ds : Text) (hne : ds ≠ []) (hd : ∀ c ∈ ds, c.isDigit = true) :
    stoi (' ' :: ds) =
      if (2 : Int) ^ 31 - 1 < (digitsValue ds : Int) then .outOfRange else .ok (digitsValue ds) := by
  cases ds with
  | nil => exact absurd rfl hne
  | cons d ds =>
    have hdd : d.isDigit = true := hd d (List.mem_cons_self _ _)
    have hsp : isSpace d = false := isDigit_not_space d hdd
    have hm : d ≠ '-' := by rintro rfl; revert hdd; decide
    have hp : d ≠ '+' := by rintro rfl; revert hdd; decide
    have h1 : (' ' :: d :: ds).dropWhile isSpace = d :: ds := by
      rw [List.dropWhile_cons, if_pos (by decide), List.dropWhile_cons, if_neg (by simp [hsp])]
    have h2 : (match d :: ds with
        | '-' :: t => (true, t)
        | '+' :: t => (false, t)
        | _ => (false, d :: ds)) = (false, d :: ds) := by
      split
      · rename_i heq; exact absurd (List.cons.inj heq).1 hm
      · rename_i heq; exact absurd (List.cons.inj heq).1 hp
      · rfl
    have hnn : ¬ ((digitsValue (d :: ds) : Int) < -(2 : Int) ^ 31) := by
      have : (0 : Int) ≤ (digitsValue (d :: ds) : Int) := Int.ofNat_nonneg _
      omega
    simp only [stoi, h1, h2, takeWhile_all _ _ hd, Bool.false_eq_true, if_false, reduceCtorEq, hnn,
      false_or]


set_option maxRecDepth 100000 in
theorem showInt_char_facts : ∀ b : Byte,
    (',' ∉ showInt (charToInt b) ∧ '\n' ∉ showInt (charToInt b))
      ∧ stoi (' ' :: showInt (charToInt b)) = .ok (charToInt b)
      ∧ intToChar (charToInt b) = b := by
  decide

set_option maxRecDepth 100000 in
theorem hexByte_facts : ∀ b : Byte, hexByte b ≠ [] ∧ '\n' ∉ hexByte b ∧ (hexByte b).length = 2 := by
  decide


theorem readUntil_append (d : Char) (pre rest : Text) (h : d ∉ pre) :
    readUntil d (pre ++ d :: rest) = (pre, some rest) := by
  induction pre with
  | nil => simp [readUntil]
  | cons a pre ih =>
    have ha : a ≠ d := fun e => h (e ▸ List.mem_cons_self _ _)
    have ih1 := ih (fun hm => h (List.mem_cons_of_mem _ hm))
    simp [readUntil, ha, ih1]

theorem readUntil_absent (d : Char) (l : Text) (h : d ∉ l) : readUntil d l = (l, none) := by
  induction l with
  | nil => simp [readUntil]
  | cons a l ih =>
    have ha : a ≠ d := fun e => h (e ▸ List.mem_cons_self _ _)
    have ih1 := ih (fun hm => h (List.mem_cons_of_mem _ hm))
    simp [readUntil, ha, ih1]

theorem getline_delim (d : Char) (pre rest str : Text) (h : d ∉ pre) :
    getline ⟨pre ++ d :: rest, false, false⟩ str d = (⟨rest, false, false⟩, pre) := by
  simp [getline, readUntil_append d pre rest h]

theorem getline_last (d : Char) (l str : Text) (h : d ∉ l) :
    getline ⟨l, false, false⟩ str d = (⟨[], true, l.isEmpty⟩, l) := by
  simp [getline, readUntil_absent d l h]

theorem not_mem_of_isDigit (d : Char) (hd : d.isDigit = false) (l : Text)
    (h : ∀ c ∈ l, c.isDigit = true) : d ∉ l := by
  intro hm
  rw [h d hm] at hd
  exact absurd hd (by simp)

theorem splitEntry_dataLineText (r : DiffRecord) :
    splitEntry (dataLineText r)
      = (' ' :: showNat r.offset, ' ' :: showInt (charToInt r.modifiedByte)) := by
  have e : dataLineText r = "Offset".toList ++ ':' :: ((' ' :: showNat r.offset) ++ ',' ::
      (" Original Byte".toList ++ ':' :: ((' ' :: showInt (charToInt r.originalByte)) ++ ',' ::
        (" Modified Byte".toList ++ ':' :: (' ' :: showInt (charToInt r.modifiedByte)))))) := by
    simp [dataLineText]
  have h2 : ',' ∉ ' ' :: showNat r.offset := by
    intro hm
    rcases List.mem_cons.1 hm with h | h
    · exact absurd h (by decide)
    · exact not_mem_of_isDigit ',' (by decide) _ (showNat_isDigit _) h
  have h4 : ',' ∉ ' ' :: showInt (charToInt r.originalByte) := by
    intro hm
    rcases List.mem_cons.1 hm with h | h
    · exact absurd h (by decide)
    · exact (showInt_char_facts r.originalByte).1.1 h
  have h6 : '\n' ∉ ' ' :: showInt (charToInt r.modifiedByte) := by
    intro hm
    rcases List.mem_cons.1 hm with h | h
    · exact absurd h (by decide)
    · exact (showInt_char_facts r.modifiedByte).1.2 h
  simp only [splitEntry, IStream.ofText, e]
  rw [getline_delim ':' _ _ _ (by decide)]
  simp only []
  rw [getline_delim ',' _ _ _ h2]
  simp only []
  rw [getline_delim ':' _ _ _ (by decide)]
  simp only []
  rw [getline_delim ',' _ _ _ h4]
  simp only []
  rw [getline_delim ':' _ _ _ (by decide)]
  simp only []
  rw [getline_last '\n' _ _ h6]

theorem parseEntry_dataLineText (r : DiffRecord) (h : r.offset < 2 ^ 31) :
    parseEntry (dataLineText r) = .ok ((r.offset : Int), r.modifiedByte) := by
  have h1 : stoi (' ' :: showNat r.offset) = .ok (r.offset : Int) := by
    rw [stoi_blank_digits (showNat r.offset) (toDigits_ne_nil 10 _) (showNat_isDigit _),
      digitsValue_showNat]
    rw [if_neg]
    have : (r.offset : Int) < 2 ^ 31 := by exact_mod_cast h
    omega
  simp only [parseEntry, splitEntry_dataLineText, h1, (showInt_char_facts r.modifiedByte).2.1,
    (showInt_char_facts r.modifiedByte).2.2]


theorem newline_not_mem_dataLineText (r : DiffRecord) : '\n' ∉ dataLineText r := by
  have h1 : '\n' ∉ showNat r.offset :=
    not_mem_of_isDigit '\n' (by decide) _ (showNat_isDigit _)
  have h2 := (showInt_char_facts r.originalByte).1.2
  have h3 := (showInt_char_facts r.modifiedByte).1.2
  simp only [dataLineText, List.mem_append, not_or]
  exact ⟨⟨⟨⟨⟨by decide, h1⟩, by decide⟩, h2⟩, by decide⟩, h3⟩

/-- One iteration of the loop of `ApplyPatchFile` on a line that ends with a newline. -/
theorem applyLoop_line (fuel : Nat) (entry rest prev : Text) (f : FStream) (n : Nat)
    (h : '\n' ∉ entry) :
    applyLoop (fuel + 1) ⟨entry ++ '\n' :: rest, false, false⟩ prev f n =
      match parseEntry entry with
      | .error e => ⟨.terminated e n, some f.disk, f.pending⟩
      | .ok (offset, modifiedByte) =>
        applyLoop fuel ⟨rest, false, false⟩ entry ((f.seekp offset).put modifiedByte) (n + 1) := by
  rw [applyLoop]
  simp only [getline_delim '\n' entry rest prev h]
  rfl

/-- The loop of `ApplyPatchFile` at the end of the patch file. -/
theorem applyLoop_end (fuel : Nat) (prev : Text) (f : FStream) (n : Nat) :
    applyLoop fuel ⟨[], false, false⟩ prev f n = ⟨.applied n, some f.flush.disk, none⟩ := by
  cases fuel with
  | zero => rfl
  | succ fuel => simp [applyLoop, getline, readUntil]

theorem applyLoop_dataLines (recs : List DiffRecord) : ∀ (fuel : Nat) (prev : Text) (f : FStream)
    (n : Nat), recs.length < fuel → (∀ r ∈ recs, r.offset < 2 ^ 31) →
    applyLoop fuel ⟨dataLines recs, false, false⟩ prev f n
      = ⟨.applied (n + recs.length), some (putRecords f recs).flush.disk, none⟩ := by
  induction recs with
  | nil => intro fuel prev f n _ _; simpa [dataLines, putRecords] using applyLoop_end fuel prev f n
  | cons r rs ih =>
    intro fuel prev f n hf hr
    obtain ⟨k, rfl⟩ : ∃ k, fuel = k + 1 := ⟨fuel - 1, by simp at hf; omega⟩
    have e : dataLines (r :: rs) = dataLineText r ++ '\n' :: dataLines rs := by
      simp [dataLines, dataLine]
    rw [e, applyLoop_line k _ _ _ _ _ (newline_not_mem_dataLineText r),
      parseEntry_dataLineText r (hr r (List.mem_cons_self _ _))]
    simp only []
    rw [ih k _ _ _ (by simp at hf; omega) (fun x hx => hr x (List.mem_cons_of_mem _ hx))]
    simp only [putRecords, List.length_cons]
    congr 2
    omega


theorem seekp_put (f : FStream) (hf : f.fail = false) (offset : Nat) (b : Byte) :
    (f.seekp (offset : Int)).put b = ⟨f.flush.disk, offset + 1, some (offset, b), false⟩ := by
  have h0 : ¬ ((offset : Int) < 0) := by omega
  have hff : f.flush.fail = false := by
    unfold FStream.flush; split <;> simp [hf]
  have hfp : f.flush.pending = none := by
    unfold FStream.flush; split <;> simp [*]
  have hfl : ∀ g : FStream, g.pending = none → g.flush = g := by
    intro g hg; unfold FStream.flush; simp [hg]
  simp only [FStream.seekp, hf, Bool.false_eq_true, if_false, h0, FStream.put, hff]
  rw [hfl _ (by simpa using hfp)]
  simp [hfp]

theorem putRecords_disk (recs : List DiffRecord) : ∀ (f : FStream), f.fail = false →
    (putRecords f recs).flush.disk
      = recs.foldl (fun d r => writeAt d r.offset r.modifiedByte) f.flush.disk := by
  induction recs with
  | nil => intro f _; rfl
  | cons r rs ih =>
    intro f hf
    simp only [putRecords, List.foldl_cons]
    rw [seekp_put f hf, ih _ rfl]
    rfl

theorem writeAt_after_head (p : List Byte) (o : Byte) (os : List Byte) (b : Byte) :
    writeAt (p ++ o :: os) p.length b = p ++ b :: os := by
  have h : p.length < (p ++ o :: os).length := by simp
  rw [writeAt, if_pos h]
  induction p with
  | nil => rfl
  | cons a p ih => simp [List.set, ih (by simp)]

theorem foldl_writeAt_diffLoop (jo jm : Nat → Byte) (O : List Byte) :
    ∀ (M p : List Byte), O.length = M.length →
      (diffLoop jo jm O M p.length).foldl (fun d r => writeAt d r.offset r.modifiedByte) (p ++ O)
        = p ++ M := by
  induction O with
  | nil =>
    intro M p h
    have : M = [] := List.length_eq_zero.1 h.symm
    subst this
    simp [diffLoop, diffModifiedRest]
  | cons o os ih =>
    intro M p h
    cases M with
    | nil => simp at h
    | cons m ms =>
      have hl : os.length = ms.length := by simpa using h
      have ih1 := ih ms (p ++ [m]) hl
      simp only [List.length_append, List.length_singleton, List.append_assoc,
        List.singleton_append] at ih1
      simp only [diffLoop, compareBytes, List.foldl_append]
      by_cases hom : o = m
      · subst hom
        simpa using ih1
      · simp only [ne_eq, hom, not_false_eq_true, if_true, List.foldl_cons, List.foldl_nil,
          writeAt_after_head]
        exact ih1

theorem diffLoop_offset_lt (jo jm : Nat → Byte) (O : List Byte) :
    ∀ (M : List Byte) (offset : Nat), O.length = M.length →
      ∀ r ∈ diffLoop jo jm O M offset, r.offset < offset + O.length := by
  induction O with
  | nil =>
    intro M offset h
    have : M = [] := List.length_eq_zero.1 h.symm
    subst this
    simp [diffLoop, diffModifiedRest]
  | cons o os ih =>
    intro M offset h
    cases M with
    | nil => simp at h
    | cons m ms =>
      have hl : os.length = ms.length := by simpa using h
      intro r hr
      simp only [diffLoop, compareBytes, List.mem_append] at hr
      rcases hr with hr | hr
      · split at hr
        · simp at hr; subst hr; simp
        · simp at hr
      · have := ih ms (offset + 1) hl r hr
        simp only [List.length_cons]
        omega


theorem newline_not_mem_hexString (l : List Byte) : '\n' ∉ hexString l := by
  induction l with
  | nil => simp [hexString]
  | cons b bs ih =>
    simp only [hexString, List.mem_append, not_or]
    exact ⟨(hexByte_facts b).2.1, ih⟩

theorem hexString_length (l : List Byte) : (hexString l).length = 2 * l.length := by
  induction l with
  | nil => rfl
  | cons b bs ih =>
    simp only [hexString, List.length_append, (hexByte_facts b).2.2, ih, List.length_cons]
    omega

theorem CalculateFileHash_length (H : Sha256) (bytes : List Byte) :
    (CalculateFileHash H (some bytes)).length = 64 := by
  simp only [CalculateFileHash, hexString_length]
  rw [(H.final _).property]

theorem CalculateFileHash_ne_nil (H : Sha256) (bytes : List Byte) :
    CalculateFileHash H (some bytes) ≠ [] := by
  intro h
  have := CalculateFileHash_length H bytes
  rw [h] at this
  simp at this

theorem newline_not_mem_CalculateFileHash (H : Sha256) (file : Option (List Byte)) :
    '\n' ∉ CalculateFileHash H file := by
  cases file with
  | none => simp [CalculateFileHash]
  | some bytes => exact newline_not_mem_hexString _

/-- Reading back the header written by the generator. -/
theorem readHeader_patchHeader (h body : Text) (hn : '\n' ∉ h) :
    readHeader (patchHeader h ++ body)
      = (⟨"--------------------------------------------------".toList ++ '\n' :: body,
          false, false⟩, "Original File Hash: ".toList ++ h) := by
  have e : patchHeader h ++ body = "PATCH FILE".toList ++ '\n' ::
      (("Original File Hash: ".toList ++ h) ++ '\n' ::
        ("--------------------------------------------------".toList ++ '\n' :: body)) := by
    simp [patchHeader]
  have h2 : '\n' ∉ "Original File Hash: ".toList ++ h := by
    simp only [List.mem_append, not_or]
    exact ⟨by decide, hn⟩
  simp only [readHeader, IStream.ofText, e]
  rw [getline_delim '\n' _ _ _ (by decide)]
  simp only []
  rw [getline_delim '\n' _ _ _ h2]

theorem recordedHash_patchHeader (h body : Text) (hn : '\n' ∉ h) :
    recordedHash (patchHeader h ++ body) = some h := by
  have e : "Original File Hash: ".toList ++ h = "Original File Hash".toList ++ (':' :: ' ' :: h) := by
    simp
  have hm : ':' ∈ "Original File Hash".toList ++ (':' :: ' ' :: h) := by simp
  have hi : List.indexOf ':' ("Original File Hash".toList ++ (':' :: ' ' :: h)) = 18 := by
    rw [List.indexOf_append_of_not_mem (by decide)]
    simp
  simp only [recordedHash, readHeader_patchHeader h body hn, e, findPlusTwo, hm, if_true, hi,
    substr]
  simp

theorem length_le_dataLines (recs : List DiffRecord) : recs.length ≤ (dataLines recs).length := by
  induction recs with
  | nil => simp
  | cons r rs ih => simp [dataLines, dataLine]; omega

/-- Applying the patch text the generator writes for a list of records with offsets below
`2 ^ 31` to the file it was generated from. -/
theorem ApplyPatchFile_generated (H : Sha256) (O : List Byte) (recs : List DiffRecord)
    (hr : ∀ r ∈ recs, r.offset < 2 ^ 31) :
    ApplyPatchFile H (some O) true
        (some (patchHeader (CalculateFileHash H (some O)) ++ dataLines recs))
      = ⟨.applied recs.length,
          some (recs.foldl (fun d r => writeAt d r.offset r.modifiedByte) O), none⟩ := by
  have hn := newline_not_mem_CalculateFileHash H (some O)
  simp only [ApplyPatchFile, recordedHash_patchHeader _ _ hn, readHeader_patchHeader _ _ hn,
    ne_eq, not_true_eq_false, if_false]
  rw [getline_delim '\n' _ _ _ (by decide)]
  simp only []
  rw [applyLoop_dataLines recs _ _ _ _ (Nat.lt_succ_of_le (length_le_dataLines recs)) hr,
    putRecords_disk recs _ rfl]
  simp [FStream.flush]


theorem diffLoop_eq_filter (jo jm : Nat → Byte) (O : List Byte) :
    ∀ (M : List Byte) (offset : Nat), O.length = M.length →
      diffLoop jo jm O M offset
        = ((List.range O.length).filter (fun i => O.getD i 0 ≠ M.getD i 0)).map
            (fun i => ⟨offset + i, O.getD i 0, M.getD i 0⟩) := by
  induction O with
  | nil =>
    intro M offset h
    have : M = [] := List.length_eq_zero.1 h.symm
    subst this
    simp [diffLoop, diffModifiedRest]
  | cons o os ih =>
    intro M offset h
    cases M with
    | nil => simp at h
    | cons m ms =>
      have hl : os.length = ms.length := by simpa using h
      rw [diffLoop, ih ms (offset + 1) hl, List.length_cons, List.range_succ_eq_map,
        List.filter_cons, List.filter_map]
      have e1 : ((fun i => decide ((o :: os).getD i 0 ≠ (m :: ms).getD i 0)) ∘ Nat.succ)
          = (fun i => decide (os.getD i 0 ≠ ms.getD i 0)) := by
        funext i; simp
      have e2 : ((fun i => (⟨offset + i, (o :: os).getD i 0, (m :: ms).getD i 0⟩ : DiffRecord))
          ∘ Nat.succ) = (fun i => ⟨offset + 1 + i, os.getD i 0, ms.getD i 0⟩) := by
        funext i
        simp only [Function.comp, List.getD_cons_succ, Nat.succ_eq_add_one]
        congr 1
        omega
      rw [e1]
      by_cases hom : o = m
      · subst hom
        simp only [compareBytes, ne_eq, not_true_eq_false, if_false, List.nil_append,
          List.getD_cons_zero, decide_False, Bool.false_eq_true, List.map_map]
        rw [e2]
      · simp only [compareBytes, ne_eq, hom, not_false_eq_true, if_true, List.getD_cons_zero,
          decide_True, List.map_cons, List.map_map, Nat.add_zero, List.singleton_append]
        rw [e2]

theorem diffLoop_eq_nil (jo jm : Nat → Byte) (O M : List Byte) (h : O.length = M.length)
    (hd : diffLoop jo jm O M 0 = []) : O = M := by
  have := foldl_writeAt_diffLoop jo jm O M [] h
  simpa [hd] using this

theorem diffLoop_self (jo jm : Nat → Byte) (O : List Byte) :
    ∀ offset, diffLoop jo jm O O offset = [] := by
  induction O with
  | nil => intro offset; rfl
  | cons o os ih => intro offset; simp [diffLoop, compareBytes, ih]

theorem compareBytes_offset (offset : Nat) (a b : Byte) :
    ∀ r ∈ compareBytes offset a b, r.offset = offset := by
  intro r hr
  simp only [compareBytes] at hr
  split at hr
  · simp at hr; subst hr; rfl
  · simp at hr

theorem diffOriginalRest_sorted (jm : Nat → Byte) (os : List Byte) : ∀ offset,
    (∀ r ∈ diffOriginalRest jm os offset, offset ≤ r.offset)
      ∧ ((diffOriginalRest jm os offset).map (·.offset)).Pairwise (· < ·) := by
  induction os with
  | nil => intro offset; simp [diffOriginalRest]
  | cons o os ih =>
    intro offset
    obtain ⟨ih1, ih2⟩ := ih (offset + 1)
    have hc := compareBytes_offset offset o (jm offset)
    refine ⟨?_, ?_⟩
    · intro r hr
      simp only [diffOriginalRest, List.mem_append] at hr
      rcases hr with hr | hr
      · exact le_of_eq (hc r hr).symm
      · exact le_trans (Nat.le_succ _) (ih1 r hr)
    · simp only [diffOriginalRest, List.map_append, List.pairwise_append, List.mem_map]
      refine ⟨?_, ih2, ?_⟩
      · simp only [compareBytes]; split <;> simp
      · rintro a ⟨r, hr, rfl⟩ b ⟨q, hq, rfl⟩
        rw [hc r hr]
        exact ih1 q hq

theorem diffModifiedRest_sorted (jo : Nat → Byte) (ms : List Byte) : ∀ offset,
    (∀ r ∈ diffModifiedRest jo ms offset, offset ≤ r.offset)
      ∧ ((diffModifiedRest jo ms offset).map (·.offset)).Pairwise (· < ·) := by
  induction ms with
  | nil => intro offset; simp [diffModifiedRest]
  | cons m ms ih =>
    intro offset
    obtain ⟨ih1, ih2⟩ := ih (offset + 1)
    have hc := compareBytes_offset offset (jo offset) m
    refine ⟨?_, ?_⟩
    · intro r hr
      simp only [diffModifiedRest, List.mem_append] at hr
      rcases hr with hr | hr
      · exact le_of_eq (hc r hr).symm
      · exact le_trans (Nat.le_succ _) (ih1 r hr)
    · simp only [diffModifiedRest, List.map_append, List.pairwise_append, List.mem_map]
      refine ⟨?_, ih2, ?_⟩
      · simp only [compareBytes]; split <;> simp
      · rintro a ⟨r, hr, rfl⟩ b ⟨q, hq, rfl⟩
        rw [hc r hr]
        exact ih1 q hq

theorem diffLoop_sorted (jo jm : Nat → Byte) (O : List Byte) : ∀ (M : List Byte) (offset : Nat),
    (∀ r ∈ diffLoop jo jm O M offset, offset ≤ r.offset)
      ∧ ((diffLoop jo jm O M offset).map (·.offset)).Pairwise (· < ·) := by
  induction O with
  | nil => intro M offset; simpa [diffLoop] using diffModifiedRest_sorted jo M offset
  | cons o os ih =>
    intro M offset
    cases M with
    | nil => simpa [diffLoop] using diffOriginalRest_sorted jm (o :: os) offset
    | cons m ms =>
      obtain ⟨ih1, ih2⟩ := ih ms (offset + 1)
      have hc := compareBytes_offset offset o m
      refine ⟨?_, ?_⟩
      · intro r hr
        simp only [diffLoop, List.mem_append] at hr
        rcases hr with hr | hr
        · exact le_of_eq (hc r hr).symm
        · exact le_trans (Nat.le_succ _) (ih1 r hr)
      · simp only [diffLoop, List.map_append, List.pairwise_append, List.mem_map]
        refine ⟨?_, ih2, ?_⟩
        · simp only [compareBytes]; split <;> simp
        · rintro a ⟨r, hr, rfl⟩ b ⟨q, hq, rfl⟩
          rw [hc r hr]
          exact ih1 q hq


theorem GeneratePatchFile_readable (H : Sha256) (jo jm : Nat → Byte) (O M : List Byte)
    (old : Option Text) :
    GeneratePatchFile H jo jm (some O) (some M) true old
      = if diffLoop jo jm O M 0 = [] then ⟨.noDifferences, none⟩
        else ⟨.generated (diffLoop jo jm O M 0).length,
          some (patchHeader (CalculateFileHash H (some O)) ++ dataLines (diffLoop jo jm O M 0))⟩ := by
  simp [GeneratePatchFile, CalculateFileHash_ne_nil]

/-- Round trip for files of at most `2 ^ 31` bytes: applying the generated patch to a copy of
the original gives the modified file, and the count reported is the number of records. -/
theorem roundtrip_of_length_le (H : Sha256) (jo jm : Nat → Byte) (O M : List Byte)
    (old : Option Text) (hlen : O.length = M.length) (hsz : O.length ≤ 2 ^ 31) :
    ApplyPatchFile H (some O) true (GeneratePatchFile H jo jm (some O) (some M) true old).patchFile
      = if O = M then ⟨.patchOpenFailed, some M, none⟩
        else ⟨.applied (diffLoop jo jm O M 0).length, some M, none⟩ := by
  rw [GeneratePatchFile_readable]
  by_cases hd : diffLoop jo jm O M 0 = []
  · have hom : O = M := diffLoop_eq_nil jo jm O M hlen hd
    subst hom
    simp [hd, ApplyPatchFile]
  · have hom : O ≠ M := by
      intro e; subst e; exact hd (diffLoop_self jo jm O 0)
    have hr : ∀ r ∈ diffLoop jo jm O M 0, r.offset < 2 ^ 31 := by
      intro r hr
      have := diffLoop_offset_lt jo jm O M 0 hlen r hr
      omega
    rw [if_neg hd, if_neg hom]
    simp only []
    rw [ApplyPatchFile_generated H O _ hr]
    have := foldl_writeAt_diffLoop jo jm O M [] hlen
    simp only [List.length_nil, List.nil_append] at this
    rw [this]

theorem roundtrip_of_length_le_witness :
    abcd.length = azcd.length ∧ abcd.length ≤ 2 ^ 31 ∧
      ApplyPatchFile toySha (some abcd) true
          (GeneratePatchFile toySha zeroJunk zeroJunk (some abcd) (some azcd) true none).patchFile
        = ⟨.applied 1, some azcd, none⟩ :=
  ⟨rfl, by decide,
    (roundtrip_of_length_le toySha zeroJunk zeroJunk abcd azcd none rfl (by decide)).trans
      (by decide)⟩

theorem diffLoop_common_head (jo jm : Nat → Byte) (p : List Byte) : ∀ (a b : List Byte) (offset : Nat),
    diffLoop jo jm (p ++ a) (p ++ b) offset = diffLoop jo jm a b (offset + p.length) := by
  induction p with
  | nil => intro a b offset; rfl
  | cons x p ih =>
    intro a b offset
    rw [List.cons_append, List.cons_append, diffLoop, ih]
    simp only [compareBytes, ne_eq, not_true_eq_false, if_false, List.nil_append,
      List.length_cons]
    rw [Nat.add_assoc, Nat.add_comm 1]

/-- A difference at offset `2 ^ 31`: the generator records it, the applier is terminated by
`std::out_of_range` when it parses the offset, and the copy stays equal to the original. -/
theorem roundtrip_at_two_pow_31 (H : Sha256) (jo jm : Nat → Byte) (p : List Byte)
    (old : Option Text) (hp : p.length = 2 ^ 31) :
    ApplyPatchFile H (some (p ++ [0])) true
        (GeneratePatchFile H jo jm (some (p ++ [0])) (some (p ++ [1])) true old).patchFile
      = ⟨.terminated .outOfRange 0, some (p ++ [0]), none⟩ := by
  have hd : diffLoop jo jm (p ++ [0]) (p ++ [1]) 0 = [⟨2 ^ 31, 0, 1⟩] := by
    rw [diffLoop_common_head, hp]
    rfl
  have hn := newline_not_mem_CalculateFileHash H (some (p ++ [0]))
  rw [GeneratePatchFile_readable, hd]
  simp only [List.cons_ne_nil, if_false]
  simp only [ApplyPatchFile, recordedHash_patchHeader _ _ hn, readHeader_patchHeader _ _ hn,
    ne_eq, not_true_eq_false, if_false]
  rw [getline_delim '\n' _ _ _ (by decide)]
  simp only [dataLines, dataLine, List.append_nil, List.append_assoc, List.singleton_append]
  rw [applyLoop_line _ _ _ _ _ _ (newline_not_mem_dataLineText _)]
  have hpe : parseEntry (dataLineText ⟨2 ^ 31, 0, 1⟩) = .error .outOfRange := by rfl
  rw [hpe]


set_option maxRecDepth 100000 in
theorem abcdPatch_generated :
    GeneratePatchFile toySha zeroJunk zeroJunk (some abcd) (some azcd) true none
      = ⟨.generated 1, some abcdPatch⟩ := by
  decide

theorem length_append_singleton_eq (p : List Byte) (a b : Byte) :
    (p ++ [a]).length = (p ++ [b]).length := by
  simp

/-- C1, the code at a failing input.  Original: `2 ^ 31` zero bytes followed by `0x00`;
modified: the same with last byte `0x01`.  The two files have the same length, the generator
writes one data line, for offset 2147483648, and the applier run on a copy of the original is
terminated by the `std::out_of_range` of `std::stoi`: the copy is left equal to the original,
not to the modified file. -/
theorem roundtrip_fails_past_int_range :
    (zeros31 ++ [0]).length = (zeros31 ++ [1]).length ∧
      ApplyPatchFile toySha (some (zeros31 ++ [0])) true
          (GeneratePatchFile toySha zeroJunk zeroJunk (some (zeros31 ++ [0]))
            (some (zeros31 ++ [1])) true none).patchFile
        = ⟨.terminated .outOfRange 0, some (zeros31 ++ [0]), none⟩ ∧
      (zeros31 ++ [0] : List Byte) ≠ zeros31 ++ [1] := by
  refine ⟨length_append_singleton_eq zeros31 0 1, ?_, ?_⟩
  · exact roundtrip_at_two_pow_31 toySha zeroJunk zeroJunk zeros31 none
      (List.length_replicate _ _)
  · intro h
    have h1 := List.append_cancel_left h
    exact absurd h1 (by decide)

/-- C2. Safety gate: whenever the hash recorded in the patch file differs from
`CalculateFileHash` of the target (readable or not, writable or not), `ApplyPatchFile`
reports the hash mismatch and the target is left as it was, whatever follows the header. -/
theorem hash_gate (H : Sha256) (X : Option (List Byte)) (targetOpens : Bool) (text h : Text)
    (hrec : recordedHash text = some h) (hne : h ≠ CalculateFileHash H X) :
    ApplyPatchFile H X targetOpens (some text) = ⟨.hashMismatch, X, none⟩ := by
  simp [ApplyPatchFile, hrec, hne]

set_option maxRecDepth 100000 in
theorem hash_gate_witness :
    (GeneratePatchFile toySha zeroJunk zeroJunk (some abcd) (some azcd) true none).patchFile
        = some abcdPatch ∧
      recordedHash abcdPatch
        = some "040a000000000000000000000000000000000000000000000000000000000000".toList ∧
      "040a000000000000000000000000000000000000000000000000000000000000".toList
        ≠ CalculateFileHash toySha (some abcde) ∧
      ApplyPatchFile toySha (some abcde) true (some abcdPatch)
        = ⟨.hashMismatch, some abcde, none⟩ :=
  ⟨congrArg GenResult.patchFile abcdPatch_generated, by decide, by decide,
    hash_gate toySha (some abcde) true abcdPatch
      "040a000000000000000000000000000000000000000000000000000000000000".toList
      (by decide) (by decide)⟩

/-- C3. Diff exactness: for two files of the same length the records of the comparison loop
are exactly the triples `(i, O[i], M[i])` of the positions where the files differ, one per
position and by increasing position, and they are the data lines of the patch file written
(no patch file is left when there is none). -/
theorem diff_exactness (H : Sha256) (jo jm : Nat → Byte) (O M : List Byte) (old : Option Text)
    (hlen : O.length = M.length) :
    diffLoop jo jm O M 0 = expectedRecords O M ∧
      (GeneratePatchFile H jo jm (some O) (some M) true old).patchFile
        = if expectedRecords O M = [] then none
          else some (patchHeader (CalculateFileHash H (some O))
            ++ dataLines (expectedRecords O M)) := by
  have h1 : diffLoop jo jm O M 0 = expectedRecords O M := by
    rw [diffLoop_eq_filter jo jm O M 0 hlen]
    simp [expectedRecords]
  refine ⟨h1, ?_⟩
  rw [GeneratePatchFile_readable, h1]
  split <;> rfl

theorem diff_exactness_witness :
    abcd.length = azcd.length ∧
      diffLoop zeroJunk zeroJunk abcd azcd 0 = [⟨1, 0x42, 0x5A⟩] :=
  ⟨rfl, (diff_exactness toySha zeroJunk zeroJunk abcd azcd none rfl).1.trans (by decide)⟩

/-- C4. No-op on identical input: comparing a readable file with itself yields no record and
the run removes the patch file it created, so nothing is found at the output path, whatever it
held before; a run that cannot open the output path writes nothing and leaves the path as it
was. -/
theorem identical_input_leaves_no_patch (H : Sha256) (jo jm : Nat → Byte) (O : List Byte)
    (old : Option Text) :
    diffLoop jo jm O O 0 = [] ∧
      GeneratePatchFile H jo jm (some O) (some O) true old = ⟨.noDifferences, none⟩ ∧
      GeneratePatchFile H jo jm (some O) (some O) false old = ⟨.patchOpenFailed, old⟩ := by
  refine ⟨diffLoop_self jo jm O 0, ?_, ?_⟩
  · rw [GeneratePatchFile_readable, if_pos (diffLoop_self jo jm O 0)]
  · simp [GeneratePatchFile, CalculateFileHash_ne_nil]

/-- C8. Reader and writer agree on the data line: for a record with offset below `2 ^ 31`,
the line the generator writes is read back whole by the applier's `std::getline`, and its
parse gives the offset and the modified byte of the record, for all 256 byte values. -/
theorem reader_writer_agree (r : DiffRecord) (rest prev : Text) (h : r.offset < 2 ^ 31) :
    (getline (IStream.ofText (dataLine r ++ rest)) prev '\n').2 = dataLineText r ∧
      parseEntry (getline (IStream.ofText (dataLine r ++ rest)) prev '\n').2
        = .ok ((r.offset : Int), r.modifiedByte) := by
  have e : getline (IStream.ofText (dataLine r ++ rest)) prev '\n'
      = (⟨rest, false, false⟩, dataLineText r) := by
    have : dataLine r ++ rest = dataLineText r ++ '\n' :: rest := by simp [dataLine]
    rw [IStream.ofText, this, getline_delim '\n' _ _ _ (newline_not_mem_dataLineText r)]
  rw [e]
  exact ⟨rfl, parseEntry_dataLineText r h⟩

theorem reader_writer_agree_witness :
    (200 : Nat) < 2 ^ 31 ∧
      parseEntry (getline (IStream.ofText (dataLine ⟨200, 0x42, 0xC8⟩ ++ [])) [] '\n').2
        = .ok ((200 : Int), (0xC8 : Byte)) :=
  ⟨by decide, (reader_writer_agree ⟨200, 0x42, 0xC8⟩ [] [] (by decide)).2⟩

/-- C9. Ordering invariant: whatever the two files and their lengths (and whatever the
uninitialised locals hold once one stream has ended), the offsets of the records are strictly
increasing in the order written; in particular no offset occurs twice. -/
theorem offsets_strictly_increasing (jo jm : Nat → Byte) (O M : List Byte) :
    ((diffLoop jo jm O M 0).map (·.offset)).Pairwise (· < ·) ∧
      ((diffLoop jo jm O M 0).map (·.offset)).Nodup := by
  have h := (diffLoop_sorted jo jm O M 0).2
  exact ⟨h, h.imp (fun hab => Nat.ne_of_lt hab)⟩


theorem showNat_eq_toString (n : Nat) : showNat n = (toString n).toList := rfl

set_option maxRecDepth 100000 in
theorem showInt_eq_specSignedByte : ∀ b : Byte, showInt (charToInt b) = specSignedByte b := by
  decide

theorem dataLine_eq_spec (r : DiffRecord) : dataLine r = specDataLine r := by
  simp only [dataLine, dataLineText, specDataLine, showInt_eq_specSignedByte, showNat_eq_toString]
  rfl

theorem dataLines_eq_spec (recs : List DiffRecord) :
    dataLines recs = (recs.map specDataLine).flatten := by
  induction recs with
  | nil => rfl
  | cons r rs ih => simp only [dataLines, List.map_cons, List.flatten_cons, ih, dataLine_eq_spec]

theorem patch_text_eq_spec (h : Text) (recs : List DiffRecord) :
    patchHeader h ++ dataLines recs = specPatchText h recs := by
  have hd : "--------------------------------------------------".toList = List.replicate 50 '-' := by
    decide
  simp only [patchHeader, specPatchText, dataLines_eq_spec, hd]
  simp

/-- C7. Patch format: for every digest text and every sequence of records, what the generator
writes is the line "PATCH FILE", the line "Original File Hash: " followed by the digest, a line
of exactly 50 dashes and one data line per record, in order, with the bytes as signed decimal
integers (a value `v` above 127 as `v - 256`); and this is the patch file left by a run on two
readable files that differ. -/
theorem patch_format (H : Sha256) (jo jm : Nat → Byte) (O M : List Byte) (old : Option Text) :
    (∀ (h : Text) (recs : List DiffRecord), patchHeader h ++ dataLines recs = specPatchText h recs)
      ∧ (GeneratePatchFile H jo jm (some O) (some M) true old).patchFile
        = if diffLoop jo jm O M 0 = [] then none
          else some (specPatchText (CalculateFileHash H (some O)) (diffLoop jo jm O M 0)) := by
  refine ⟨patch_text_eq_spec, ?_⟩
  rw [GeneratePatchFile_readable]
  split
  · rfl
  · rw [patch_text_eq_spec]


theorem bufferSize_pos : 0 < bufferSize := by decide

theorem hashLoop_eq_foldl (H : Sha256) (fuel : Nat) : ∀ (ctx : H.Ctx) (bytes : List Byte),
    hashLoop H fuel ctx bytes = (readChunks fuel bytes).foldl H.update ctx := by
  induction fuel with
  | zero => intro ctx bytes; rfl
  | succ fuel ih =>
    intro ctx bytes
    simp only [hashLoop, readChunks]
    split
    · rfl
    · rw [ih]; rfl

theorem readChunks_length_le (fuel : Nat) : ∀ (bytes : List Byte),
    ∀ c ∈ readChunks fuel bytes, c.length ≤ bufferSize := by
  induction fuel with
  | zero => intro bytes c hc; simp [readChunks] at hc
  | succ fuel ih =>
    intro bytes c hc
    simp only [readChunks] at hc
    split at hc
    · rw [List.mem_singleton.1 hc]; exact List.length_take_le _ _
    · rcases List.mem_cons.1 hc with h | h
      · rw [h]; exact List.length_take_le _ _
      · exact ih _ c h

theorem readChunks_flatten (fuel : Nat) : ∀ (bytes : List Byte),
    bytes.length < fuel * bufferSize → (readChunks fuel bytes).flatten = bytes := by
  induction fuel with
  | zero => intro bytes h; simp at h
  | succ fuel ih =>
    intro bytes h
    simp only [readChunks]
    split
    · rename_i hlt
      have hb : bytes.length < bufferSize := by
        rw [List.length_take] at hlt
        omega
      simp [List.take_of_length_le (le_of_lt hb)]
    · rename_i hge
      have hb : bufferSize ≤ bytes.length := by
        rw [List.length_take] at hge
        omega
      have hd : (bytes.drop bufferSize).length < fuel * bufferSize := by
        rw [List.length_drop]
        rw [Nat.succ_mul] at h
        omega
      rw [List.flatten_cons, ih _ hd, List.take_append_drop]

theorem readChunks_count (fuel : Nat) : ∀ (bytes : List Byte),
    bytes.length < fuel * bufferSize →
      (readChunks fuel bytes).length = bytes.length / bufferSize + 1 := by
  induction fuel with
  | zero => intro bytes h; simp at h
  | succ fuel ih =>
    intro bytes h
    simp only [readChunks]
    split
    · rename_i hlt
      have hb : bytes.length < bufferSize := by
        rw [List.length_take] at hlt
        omega
      simp [Nat.div_eq_of_lt hb]
    · rename_i hge
      have hb : bufferSize ≤ bytes.length := by
        rw [List.length_take] at hge
        omega
      have hd : (bytes.drop bufferSize).length < fuel * bufferSize := by
        rw [List.length_drop]
        rw [Nat.succ_mul] at h
        omega
      rw [List.length_cons, ih _ hd, List.length_drop]
      have := Nat.sub_add_cancel hb
      conv_rhs => rw [← this, Nat.add_div_right _ bufferSize_pos]

theorem hashIterations_enough (n : Nat) : n < hashIterations n * bufferSize := by
  unfold hashIterations
  have := Nat.div_add_mod n bufferSize
  have := Nat.mod_lt n bufferSize_pos
  rw [Nat.add_mul, Nat.mul_comm]
  omega

theorem foldl_update_flatten (H : Sha256) (hs : H.Streaming) (chunks : List (List Byte)) :
    ∀ ctx, chunks.foldl H.update ctx = H.update ctx chunks.flatten := by
  induction chunks with
  | nil => intro ctx; simp [hs.update_nil]
  | cons c cs ih => intro ctx; simp [ih, hs.update_append]

/-- C10. Chunked digest equals whole-content digest: the buffers the read loop of
`CalculateFileHash` hands to the accumulator hold at most 4096 bytes each, their
concatenation in order is the content of the file, and for an accumulator with the streaming
law the result is the hexadecimal text of the digest of the whole content, for every content
(the empty one and those whose length is a multiple of 4096 included). -/
theorem chunked_digest_eq_whole (H : Sha256) (hs : H.Streaming) (bytes : List Byte) :
    (∀ c ∈ readChunks (hashIterations bytes.length) bytes, c.length ≤ 4096)
      ∧ (readChunks (hashIterations bytes.length) bytes).flatten = bytes
      ∧ (readChunks (hashIterations bytes.length) bytes).length = bytes.length / 4096 + 1
      ∧ hashLoop H (hashIterations bytes.length) H.init bytes
          = (readChunks (hashIterations bytes.length) bytes).foldl H.update H.init
      ∧ CalculateFileHash H (some bytes) = hexString (H.final (H.update H.init bytes)).val := by
  have hfl := readChunks_flatten _ bytes (hashIterations_enough bytes.length)
  refine ⟨readChunks_length_le _ bytes, hfl,
    readChunks_count _ bytes (hashIterations_enough bytes.length), hashLoop_eq_foldl H _ _ _, ?_⟩
  simp only [CalculateFileHash]
  rw [hashLoop_eq_foldl, foldl_update_flatten H hs, hfl]

theorem toySha_streaming : toySha.Streaming :=
  ⟨fun c => List.append_nil c, fun c a b => List.append_assoc c a b⟩

theorem chunked_digest_eq_whole_witness :
    toySha.Streaming ∧
      CalculateFileHash toySha (some []) = hexString (toySha.final (toySha.update toySha.init [])).val :=
  ⟨toySha_streaming, (chunked_digest_eq_whole toySha toySha_streaming []).2.2.2.2⟩


/-- One iteration of the loop of `ApplyPatchFile` on a last line that has no newline. -/
theorem applyLoop_last_line (fuel : Nat) (entry prev : Text) (f : FStream) (n : Nat)
    (h : '\n' ∉ entry) (hne : entry ≠ []) :
    applyLoop (fuel + 1) ⟨entry, false, false⟩ prev f n =
      match parseEntry entry with
      | .error e => ⟨.terminated e n, some f.disk, f.pending⟩
      | .ok (offset, modifiedByte) =>
        applyLoop fuel ⟨[], true, false⟩ entry ((f.seekp offset).put modifiedByte) (n + 1) := by
  have he : entry.isEmpty = false := by
    cases entry with
    | nil => exact absurd rfl hne
    | cons a l => rfl
  rw [applyLoop]
  simp only [getline_last '\n' entry prev h, he]
  rfl

theorem parseEntry_bad_offset (entry : Text)
    (h : stoi (splitEntry entry).1 = .invalidArgument) :
    parseEntry entry = .error .invalidArgument := by
  simp only [parseEntry, h]

theorem applyLoop_until_bad (good : List Text) : ∀ (edits : List (Int × Byte)) (fuel : Nat)
    (prev bad tail : Text) (f : FStream) (n : Nat),
    good.length < fuel →
    List.Forall₂ (fun g e => '\n' ∉ g ∧ parseEntry g = .ok e) good edits →
    '\n' ∉ bad → ((tail = [] ∧ bad ≠ []) ∨ ∃ rest, tail = '\n' :: rest) →
    stoi (splitEntry bad).1 = .invalidArgument →
    applyLoop fuel ⟨textOfLines good ++ bad ++ tail, false, false⟩ prev f n
      = ⟨.terminated .invalidArgument (n + good.length), some (putEdits f edits).disk,
          (putEdits f edits).pending⟩ := by
  induction good with
  | nil =>
    intro edits fuel prev bad tail f n hf hg hb hend hoff
    cases hg
    obtain ⟨k, rfl⟩ : ∃ k, fuel = k + 1 := ⟨fuel - 1, by simp at hf; omega⟩
    simp only [textOfLines, List.nil_append, putEdits, List.length_nil, Nat.add_zero]
    rcases hend with ⟨rfl, hne⟩ | ⟨rest, rfl⟩
    · rw [List.append_nil, applyLoop_last_line k bad prev f n hb hne,
        parseEntry_bad_offset bad hoff]
    · rw [applyLoop_line k bad rest prev f n hb, parseEntry_bad_offset bad hoff]
  | cons g gs ih =>
    intro edits fuel prev bad tail f n hf hg hb hend hoff
    cases hg with
    | cons hge hrest =>
      rename_i e es
      obtain ⟨k, rfl⟩ : ∃ k, fuel = k + 1 := ⟨fuel - 1, by simp at hf; omega⟩
      have e1 : textOfLines (g :: gs) ++ bad ++ tail
          = g ++ '\n' :: (textOfLines gs ++ bad ++ tail) := by
        simp [textOfLines]
      rw [e1, applyLoop_line k g _ prev f n hge.1, hge.2]
      simp only []
      rw [ih es k g bad tail _ (n + 1) (by simp at hf; omega) hrest hb hend hoff]
      simp only [putEdits, List.length_cons]
      congr 2
      omega

theorem length_le_textOfLines (ls : List Text) : ls.length ≤ (textOfLines ls).length := by
  induction ls with
  | nil => simp
  | cons l ls ih => simp [textOfLines]; omega

set_option maxRecDepth 100000 in
/-- C5 (counterexample). The patch `abcdBadOffsetPatch` carries the digest of "ABCD" and its
third data line has the offset field " x", which `std::stoi` rejects; applied to "ABCD" the
run is terminated at that line after the edits of the two lines before it were issued: the
first byte of the target has been overwritten (0x58 for 0x41), so the target does not keep
its prior contents. -/
theorem bad_offset_after_writes :
    stoi (splitEntry "Offset: x, Original Byte: 67, Modified Byte: 90".toList).1
        = .invalidArgument ∧
      ApplyPatchFile toySha (some abcd) true (some abcdBadOffsetPatch)
        = ⟨.terminated .invalidArgument 2, some [0x58, 0x42, 0x43, 0x44], some (1, 0x59)⟩ ∧
      (ApplyPatchFile toySha (some abcd) true (some abcdBadOffsetPatch)).target ≠ some abcd := by
  decide

set_option maxRecDepth 100000 in
/-- C6 (counterexample). The patch `abcdNoMagicPatch` has "GARBAGE" for first line and a
second line that is not an "Original File Hash: " line; `ApplyPatchFile` accepts it and
rewrites the target "ABCD" into "AZCD". -/
theorem magic_line_not_checked :
    (getline (IStream.ofText abcdNoMagicPatch) [] '\n').2 = "GARBAGE".toList ∧
      (readHeader abcdNoMagicPatch).2
        = "no label:x040a000000000000000000000000000000000000000000000000000000000000".toList ∧
      ApplyPatchFile toySha (some abcd) true (some abcdNoMagicPatch)
        = ⟨.applied 1, some azcd, none⟩ := by
  decide

theorem getline_good_irrelevant (rest s s' : Text) (d : Char) :
    getline ⟨rest, false, false⟩ s d = getline ⟨rest, false, false⟩ s' d := by
  simp [getline]

theorem readHeader_first_line (l1 l1' rest : Text) (h1 : '\n' ∉ l1) (h1' : '\n' ∉ l1') :
    readHeader (l1 ++ '\n' :: rest) = readHeader (l1' ++ '\n' :: rest) := by
  simp only [readHeader, IStream.ofText, getline_delim '\n' _ rest [] h1,
    getline_delim '\n' _ rest [] h1']
  exact getline_good_irrelevant rest l1 l1' '\n'

theorem readUntil_some_length (d : Char) (l : Text) : ∀ (rest : Text),
    (readUntil d l).2 = some rest → rest.length < l.length := by
  induction l with
  | nil => intro rest h; simp [readUntil] at h
  | cons c cs ih =>
    intro rest h
    by_cases hc : c = d
    · simp only [readUntil, hc, if_true, Option.some.injEq] at h
      subst h; simp
    · simp only [readUntil, hc, if_false] at h
      exact lt_trans (ih rest h) (by simp)

theorem readUntil_none_line (d : Char) (l : Text) :
    (readUntil d l).2 = none → (readUntil d l).1 = l := by
  induction l with
  | nil => intro _; rfl
  | cons c cs ih =>
    intro h
    by_cases hc : c = d
    · simp [readUntil, hc] at h
    · simp only [readUntil, hc, if_false] at h
      simp only [readUntil, hc, if_false, List.cons.injEq, true_and]
      exact ih h

/-- After a `std::getline` that did not fail, fewer characters are left than the fuel that
bounded them before. -/
theorem getline_rest_lt (s : IStream) (str : Text) (d : Char)
    (h : (getline s str d).1.fail = false) :
    (getline s str d).1.rest.length < s.rest.length := by
  unfold getline at h ⊢
  by_cases hs : (s.eof || s.fail) = true
  · simp [hs] at h
  · simp only [hs, Bool.false_eq_true, if_false] at h ⊢
    cases hr : readUntil d s.rest with
    | mk line o =>
      cases o with
      | some rest =>
        simp only [hr]
        have := readUntil_some_length d s.rest rest (by rw [hr])
        simpa using this
      | none =>
        simp only [hr] at h ⊢
        have hl : line = s.rest := by
          have := readUntil_none_line d s.rest (by rw [hr])
          rw [hr] at this
          exact this
        subst hl
        cases hrest : s.rest with
        | nil => simp [hrest] at h
        | cons a l => simp

/-- The bound on the number of iterations in `ApplyPatchFile` is never reached: with more
fuel than characters left in the patch stream, the loop gives the same result with any
larger fuel. -/
theorem applyLoop_fuel_succ (fuel : Nat) : ∀ (s : IStream) (patchEntry : Text) (f : FStream)
    (n : Nat), s.rest.length < fuel →
    applyLoop (fuel + 1) s patchEntry f n = applyLoop fuel s patchEntry f n := by
  induction fuel with
  | zero => intro s patchEntry f n h; omega
  | succ k ih =>
    intro s patchEntry f n h
    rw [applyLoop, applyLoop]
    by_cases hf : (getline s patchEntry '\n').1.fail = true
    · simp only [hf, if_true]
    · simp only [hf, Bool.false_eq_true, if_false]
      have hlt := getline_rest_lt s patchEntry '\n' (by simpa using hf)
      cases hp : parseEntry (getline s patchEntry '\n').2 with
      | error e => rfl
      | ok v =>
        obtain ⟨offset, modifiedByte⟩ := v
        simp only []
        exact ih _ _ _ _ (by omega)

theorem splitLines_cons_readUntil (c : Char) (cs : Text) :
    splitLines (c :: cs) = (readUntil '\n' (c :: cs)).1 ::
      (match (readUntil '\n' (c :: cs)).2 with
        | some rest => splitLines rest
        | none => []) := by
  induction cs generalizing c with
  | nil =>
    by_cases hc : c = '\n'
    · simp [splitLines, readUntil, hc]
    · simp [splitLines, readUntil, hc]
  | cons d ds ih =>
    by_cases hc : c = '\n'
    · simp [splitLines, readUntil, hc]
    · have := ih d
      rw [splitLines, if_neg hc, this]
      simp [readUntil, hc]

theorem applyLoop_not_good (fuel : Nat) (s : IStream) (prev : Text) (f : FStream) (n : Nat)
    (h : (s.eof || s.fail) = true) :
    applyLoop fuel s prev f n = ⟨.applied n, some f.flush.disk, none⟩ := by
  cases fuel with
  | zero => rfl
  | succ k => simp [applyLoop, getline, h]

/-- The loop of `ApplyPatchFile` on a good stream is the loop body run on the lines of the
text left in the stream, whenever the fuel exceeds the number of characters left. -/
theorem applyLoop_eq_runEntries (fuel : Nat) : ∀ (rest prev : Text) (f : FStream) (n : Nat),
    rest.length < fuel →
    applyLoop fuel ⟨rest, false, false⟩ prev f n = runEntries (splitLines rest) f n := by
  induction fuel with
  | zero => intro rest prev f n h; omega
  | succ k ih =>
    intro rest prev f n h
    cases rest with
    | nil => simp [applyLoop, getline, readUntil, splitLines, runEntries]
    | cons c cs =>
      rw [splitLines_cons_readUntil, applyLoop, runEntries]
      cases hr : readUntil '\n' (c :: cs) with
      | mk line o =>
        cases o with
        | some rest1 =>
          have hlen := readUntil_some_length '\n' (c :: cs) rest1 (by rw [hr])
          simp only [getline, Bool.or_self, Bool.false_eq_true, if_false, hr]
          cases hp : parseEntry line with
          | error e => rfl
          | ok v =>
            obtain ⟨offset, modifiedByte⟩ := v
            simp only []
            exact ih rest1 line _ _ (by simp only [List.length_cons] at h hlen; omega)
        | none =>
          have hl : line = c :: cs := by
            have := readUntil_none_line '\n' (c :: cs) (by rw [hr])
            rw [hr] at this
            exact this
          subst hl
          simp only [getline, Bool.or_self, Bool.false_eq_true, if_false, hr, List.isEmpty_cons]
          cases hp : parseEntry (c :: cs) with
          | error e => rfl
          | ok v =>
            obtain ⟨offset, modifiedByte⟩ := v
            simp only []
            rw [applyLoop_not_good k _ _ _ _ (by rfl)]
            rfl

/-- `ApplyPatchFile` on a target that passes the digest gate and opens: the loop body run on
the data lines of the patch file. -/
theorem ApplyPatchFile_eq_runEntries (H : Sha256) (bytes : List Byte) (text : Text)
    (hrec : recordedHash text = some (CalculateFileHash H (some bytes))) :
    ApplyPatchFile H (some bytes) true (some text)
      = runEntries (dataEntries text) ⟨bytes, 0, none, false⟩ 0 := by
  simp only [ApplyPatchFile, hrec, ne_eq, not_true_eq_false, if_false, dataEntries, dataStream]
  generalize getline (readHeader text).1 (readHeader text).2 '\n' = r
  obtain ⟨⟨rest, eof, fail⟩, line⟩ := r
  by_cases hg : (eof || fail) = true
  · simp only [hg, if_true]
    rw [applyLoop_not_good _ _ _ _ _ hg]
    rfl
  · have he : eof = false := by cases eof <;> simp_all
    have hf : fail = false := by cases fail <;> simp_all
    subst he hf
    simp only [Bool.or_self, Bool.false_eq_true, if_false]
    exact applyLoop_eq_runEntries _ rest _ _ _ (Nat.lt_succ_self _)

theorem writeAt_length (f : List Byte) (p : Nat) (b : Byte) :
    (writeAt f p b).length = max f.length (p + 1) := by
  unfold writeAt
  split
  · rw [List.length_set]; omega
  · simp only [List.length_append, List.length_replicate, List.length_singleton]; omega

theorem writeAt_getD (f : List Byte) (p : Nat) (b : Byte) (i : Nat) :
    (writeAt f p b).getD i 0 = if i = p then b else f.getD i 0 := by
  unfold writeAt
  split
  · rename_i h
    by_cases hip : i = p
    · subst hip
      simp [List.getD_eq_getElem?_getD, List.getElem?_set, h]
    · simp [List.getD_eq_getElem?_getD, List.getElem?_set, hip, Ne.symm hip]
  · rename_i h
    have hle : f.length ≤ p := Nat.le_of_not_lt h
    by_cases hip : i = p
    · subst hip
      rw [if_pos rfl, List.getD_eq_getElem?_getD, List.getElem?_append_right (by simp; omega)]
      have h0 : i - (f ++ List.replicate (i - f.length) 0).length = 0 := by simp; omega
      rw [h0]
      rfl
    · rw [if_neg hip, List.getD_eq_getElem?_getD, List.getD_eq_getElem?_getD]
      by_cases hif : i < f.length
      · rw [List.append_assoc, List.getElem?_append_left hif]
      · have hif' : f.length ≤ i := Nat.le_of_not_lt hif
        rw [List.getElem?_eq_none hif']
        by_cases hi2 : i < p
        · rw [List.getElem?_append_left (by simp; omega),
            List.getElem?_append_right hif', List.getElem?_replicate]
          split <;> rfl
        · rw [List.getElem?_eq_none (by simp; omega)]

theorem eq_of_length_of_getD (l₁ l₂ : List Byte) (hl : l₁.length = l₂.length)
    (h : ∀ i, l₁.getD i 0 = l₂.getD i 0) : l₁ = l₂ := by
  apply List.ext_getElem hl
  intro n h1 h2
  have := h n
  rwa [List.getD_eq_getElem _ _ h1, List.getD_eq_getElem _ _ h2] at this

theorem writeAt_comm (f : List Byte) (p q : Nat) (a b : Byte) (h : p ≠ q) :
    writeAt (writeAt f p a) q b = writeAt (writeAt f q b) p a := by
  apply eq_of_length_of_getD
  · simp only [writeAt_length]; omega
  · intro i
    simp only [writeAt_getD]
    by_cases h1 : i = q
    · by_cases h2 : i = p
      · exact absurd (h2.symm.trans h1) h
      · simp [h1, h2, Ne.symm h]
    · simp [h1]

theorem writeEdits_length (edits : List (Nat × Byte)) : ∀ (file : List Byte),
    (∀ e ∈ edits, e.1 < file.length) → (writeEdits file edits).length = file.length := by
  induction edits with
  | nil => intro file _; rfl
  | cons e es ih =>
    intro file h
    have h1 : (writeAt file e.1 e.2).length = file.length := by
      rw [writeAt_length]
      have := h e (List.mem_cons_self _ _)
      omega
    have := ih (writeAt file e.1 e.2) (fun x hx => by
      rw [h1]; exact h x (List.mem_cons_of_mem _ hx))
    simpa [writeEdits, h1] using this

theorem writeEdits_getD (edits : List (Nat × Byte)) : ∀ (file : List Byte) (i : Nat),
    (writeEdits file edits).getD i 0
      = match edits.reverse.find? (fun e => e.1 = i) with
        | some e => e.2
        | none => file.getD i 0 := by
  induction edits with
  | nil => intro file i; rfl
  | cons e es ih =>
    intro file i
    have h := ih (writeAt file e.1 e.2) i
    simp only [writeEdits, List.foldl_cons] at h ⊢
    rw [h, List.reverse_cons, List.find?_append]
    cases hf : List.find? (fun e => decide (e.1 = i)) es.reverse with
    | some x => simp
    | none =>
      simp only [Option.none_or, writeAt_getD]
      by_cases hi : e.1 = i
      · simp [List.find?, hi]
      · simp [List.find?, hi, Ne.symm hi]

theorem writeEdits_perm (l₁ l₂ : List (Nat × Byte)) (file : List Byte) (hp : l₁.Perm l₂)
    (hd : (l₁.map Prod.fst).Nodup) : writeEdits file l₁ = writeEdits file l₂ := by
  unfold writeEdits
  apply List.Perm.foldl_eq' hp
  intro x hx y hy z
  by_cases hxy : x = y
  · subst hxy; rfl
  · have hne : x.1 ≠ y.1 := by
      intro he
      exact hxy (List.inj_on_of_nodup_map hd hx hy he)
    exact writeAt_comm z x.1 y.1 x.2 y.2 hne

/-- The loop body on data lines that all parse, with offsets that are not negative: every
edit is written, in order, and the counter advances by one per line. -/
theorem runEntries_parsed (entries : List Text) : ∀ (edits : List (Nat × Byte)) (f : FStream)
    (n : Nat), f.fail = false →
    List.Forall₂ (fun l (e : Nat × Byte) => parseEntry l = .ok ((e.1 : Int), e.2)) entries edits →
    runEntries entries f n
      = ⟨.applied (n + edits.length), some (writeEdits f.flush.disk edits), none⟩ := by
  induction entries with
  | nil =>
    intro edits f n _ h
    cases h
    rfl
  | cons l ls ih =>
    intro edits f n hf h
    cases h with
    | cons hl hrest =>
      rename_i e es
      rw [runEntries, hl]
      simp only []
      rw [seekp_put f hf, ih es _ (n + 1) rfl hrest]
      simp only [writeEdits, List.foldl_cons, List.length_cons, FStream.flush]
      congr 2
      omega

theorem splitLines_line (l rest : Text) (h : '\n' ∉ l) :
    splitLines (l ++ '\n' :: rest) = l :: splitLines rest := by
  induction l with
  | nil => simp [splitLines]
  | cons c cs ih =>
    have hc : c ≠ '\n' := fun e => h (e ▸ List.mem_cons_self _ _)
    have ih1 := ih (fun hm => h (List.mem_cons_of_mem _ hm))
    rw [List.cons_append, splitLines, if_neg hc, ih1]

theorem splitLines_textOfLines (ls : List Text) (h : ∀ l ∈ ls, '\n' ∉ l) :
    splitLines (textOfLines ls) = ls := by
  induction ls with
  | nil => rfl
  | cons l ls ih =>
    rw [textOfLines, splitLines_line l _ (h l (List.mem_cons_self _ _)),
      ih (fun x hx => h x (List.mem_cons_of_mem _ hx))]

theorem dataLines_eq_textOfLines (recs : List DiffRecord) :
    dataLines recs = textOfLines (recs.map dataLineText) := by
  induction recs with
  | nil => rfl
  | cons r rs ih => simp [dataLines, dataLine, textOfLines, ih]

theorem splitLines_dataLines (recs : List DiffRecord) :
    splitLines (dataLines recs) = recs.map dataLineText := by
  rw [dataLines_eq_textOfLines]
  apply splitLines_textOfLines
  intro l hl
  obtain ⟨r, _, rfl⟩ := List.mem_map.1 hl
  exact newline_not_mem_dataLineText r

/-- `ApplyPatchFile` on a patch file that opens, with its loop written as `runEntries`. -/
theorem ApplyPatchFile_eq (H : Sha256) (target : Option (List Byte)) (targetOpens : Bool)
    (text : Text) :
    ApplyPatchFile H target targetOpens (some text)
      = match recordedHash text with
        | none => ⟨.terminated .outOfRange 0, target, none⟩
        | some originalHash =>
          if originalHash ≠ CalculateFileHash H target then ⟨.hashMismatch, target, none⟩
          else
            match target, targetOpens with
            | some bytes, true => runEntries (dataEntries text) ⟨bytes, 0, none, false⟩ 0
            | _, _ => ⟨.targetOpenFailed, target, none⟩ := by
  cases hr : recordedHash text with
  | none => simp [ApplyPatchFile, hr]
  | some h =>
    by_cases hh : h = CalculateFileHash H target
    · cases target with
      | none => simp [ApplyPatchFile, hr, hh]
      | some bytes =>
        cases targetOpens with
        | false => simp [ApplyPatchFile, hr, hh]
        | true =>
          rw [ApplyPatchFile_eq_runEntries H bytes text (by rw [hr, hh])]
          simp [hh]
    · simp [ApplyPatchFile, hr, hh]

/-- Reading three header lines that end with a newline. -/
theorem dataStream_three_lines (l1 l2 l3 body : Text) (h1 : '\n' ∉ l1) (h2 : '\n' ∉ l2)
    (h3 : '\n' ∉ l3) :
    readHeader (textOfLines [l1, l2, l3] ++ body) = (⟨l3 ++ '\n' :: body, false, false⟩, l2)
      ∧ dataStream (textOfLines [l1, l2, l3] ++ body) = ⟨body, false, false⟩ := by
  have e : textOfLines [l1, l2, l3] ++ body = l1 ++ '\n' :: (l2 ++ '\n' :: (l3 ++ '\n' :: body)) := by
    simp [textOfLines]
  have hh : readHeader (textOfLines [l1, l2, l3] ++ body)
      = (⟨l3 ++ '\n' :: body, false, false⟩, l2) := by
    simp only [readHeader, IStream.ofText, e]
    rw [getline_delim '\n' _ _ _ h1]
    simp only []
    rw [getline_delim '\n' _ _ _ h2]
  refine ⟨hh, ?_⟩
  simp only [dataStream, hh]
  rw [getline_delim '\n' _ _ _ h3]

theorem patchHeader_eq_textOfLines (h : Text) :
    patchHeader h = textOfLines ["PATCH FILE".toList, "Original File Hash: ".toList ++ h,
      "--------------------------------------------------".toList] := by
  simp [patchHeader, textOfLines]

theorem dataEntries_generated (h : Text) (recs : List DiffRecord) (hn : '\n' ∉ h) :
    dataEntries (patchHeader h ++ dataLines recs) = recs.map dataLineText := by
  have h2 : '\n' ∉ "Original File Hash: ".toList ++ h := by
    simp only [List.mem_append, not_or]
    exact ⟨by decide, hn⟩
  have := (dataStream_three_lines "PATCH FILE".toList ("Original File Hash: ".toList ++ h)
    "--------------------------------------------------".toList (dataLines recs)
    (by decide) h2 (by decide)).2
  rw [← patchHeader_eq_textOfLines] at this
  simp only [dataEntries, this, Bool.or_self, Bool.false_eq_true, if_false, splitLines_dataLines]

theorem parseEntry_dataLineText_congr (r r' : DiffRecord) (ho : r.offset = r'.offset)
    (hm : r.modifiedByte = r'.modifiedByte) :
    parseEntry (dataLineText r) = parseEntry (dataLineText r') := by
  simp only [parseEntry, splitEntry_dataLineText, ho, hm]

theorem runEntries_congr (es es' : List Text)
    (h : List.Forall₂ (fun l l' => parseEntry l = parseEntry l') es es') :
    ∀ (f : FStream) (n : Nat), runEntries es f n = runEntries es' f n := by
  induction h with
  | nil => intro f n; rfl
  | cons hl _ ih =>
    intro f n
    rw [runEntries, runEntries, hl]
    cases parseEntry _ with
    | error e => rfl
    | ok v => obtain ⟨o, b⟩ := v; exact ih _ _

/-- Edit application on parsed edits: for a target that passes the digest gate and a patch
whose data lines parse to the edits `(offset, modifiedByte)`, the offsets being non-negative
(hence below `2 ^ 31`) and all below the length of the file, `ApplyPatchFile` runs to the end
and leaves a file of the same length that holds, at each offset, the modified byte of the last
edit naming this offset and the former byte when no edit names it. -/
theorem edits_overwrite_named_bytes (H : Sha256) (bytes : List Byte) (text : Text)
    (edits : List (Nat × Byte))
    (hrec : recordedHash text = some (CalculateFileHash H (some bytes)))
    (hparse : List.Forall₂ (fun l (e : Nat × Byte) => parseEntry l = .ok ((e.1 : Int), e.2))
      (dataEntries text) edits)
    (hlt : ∀ e ∈ edits, e.1 < bytes.length) :
    ∃ final : List Byte,
      ApplyPatchFile H (some bytes) true (some text) = ⟨.applied edits.length, some final, none⟩
        ∧ final.length = bytes.length
        ∧ ∀ i, final.getD i 0
            = match edits.reverse.find? (fun e => e.1 = i) with
              | some e => e.2
              | none => bytes.getD i 0 := by
  refine ⟨writeEdits bytes edits, ?_, writeEdits_length edits bytes hlt,
    writeEdits_getD edits bytes⟩
  rw [ApplyPatchFile_eq_runEntries H bytes text hrec,
    runEntries_parsed _ edits _ 0 rfl hparse]
  simp [FStream.flush]

set_option maxRecDepth 100000 in
theorem edits_overwrite_named_bytes_witness :
    ∃ final : List Byte,
      ApplyPatchFile toySha (some abcd) true (some abcdTwoEditsPatch)
          = ⟨.applied 2, some final, none⟩
        ∧ final.length = abcd.length
        ∧ ∀ i, final.getD i 0
            = match [((1 : Nat), (0x5A : Byte)), (3, 0x58)].reverse.find? (fun e => e.1 = i) with
              | some e => e.2
              | none => abcd.getD i 0 :=
  edits_overwrite_named_bytes toySha abcd abcdTwoEditsPatch [(1, 0x5A), (3, 0x58)]
    (by decide) (.cons rfl (.cons rfl .nil)) (by decide)

/-- Order independence on parsed edits: two patch files that pass the digest gate of the same
target and whose data lines parse to the same edits, of non-negative offsets (hence below
`2 ^ 31`), in a different order give the same result (final contents and count), when no two
edits name the same offset. -/
theorem order_independence (H : Sha256) (bytes : List Byte) (text₁ text₂ : Text)
    (edits₁ edits₂ : List (Nat × Byte))
    (hrec₁ : recordedHash text₁ = some (CalculateFileHash H (some bytes)))
    (hrec₂ : recordedHash text₂ = some (CalculateFileHash H (some bytes)))
    (hparse₁ : List.Forall₂ (fun l (e : Nat × Byte) => parseEntry l = .ok ((e.1 : Int), e.2))
      (dataEntries text₁) edits₁)
    (hparse₂ : List.Forall₂ (fun l (e : Nat × Byte) => parseEntry l = .ok ((e.1 : Int), e.2))
      (dataEntries text₂) edits₂)
    (hperm : edits₁.Perm edits₂) (hdistinct : (edits₁.map Prod.fst).Nodup) :
    ApplyPatchFile H (some bytes) true (some text₁)
        = ApplyPatchFile H (some bytes) true (some text₂)
      ∧ ApplyPatchFile H (some bytes) true (some text₁)
        = ⟨.applied edits₁.length, some (writeEdits bytes edits₁), none⟩ := by
  have h1 : ApplyPatchFile H (some bytes) true (some text₁)
      = ⟨.applied edits₁.length, some (writeEdits bytes edits₁), none⟩ := by
    rw [ApplyPatchFile_eq_runEntries H bytes text₁ hrec₁,
      runEntries_parsed _ edits₁ _ 0 rfl hparse₁]
    simp [FStream.flush]
  have h2 : ApplyPatchFile H (some bytes) true (some text₂)
      = ⟨.applied edits₂.length, some (writeEdits bytes edits₂), none⟩ := by
    rw [ApplyPatchFile_eq_runEntries H bytes text₂ hrec₂,
      runEntries_parsed _ edits₂ _ 0 rfl hparse₂]
    simp [FStream.flush]
  refine ⟨?_, h1⟩
  rw [h1, h2, hperm.length_eq, writeEdits_perm edits₁ edits₂ bytes hperm hdistinct]

set_option maxRecDepth 100000 in
theorem order_independence_witness :
    ApplyPatchFile toySha (some abcd) true (some abcdTwoEditsPatch)
        = ApplyPatchFile toySha (some abcd) true (some abcdTwoEditsSwapped)
      ∧ ApplyPatchFile toySha (some abcd) true (some abcdTwoEditsPatch)
        = ⟨.applied 2, some [0x41, 0x5A, 0x43, 0x58], none⟩ :=
  ⟨(order_independence toySha abcd abcdTwoEditsPatch abcdTwoEditsSwapped
      [(1, 0x5A), (3, 0x58)] [(3, 0x58), (1, 0x5A)] (by decide) (by decide)
      (.cons rfl (.cons rfl .nil)) (.cons rfl (.cons rfl .nil))
      (List.Perm.swap _ _ _) (by decide)).1,
    by decide⟩

/-- C14. The Original Byte field is advisory: two patch files with the same three header
lines whose data lines, in the generator's format, carry the same offsets and modified bytes
give the same result of `ApplyPatchFile` (outcome, count and final target), whatever original
bytes they record and whatever the target holds; the digest of the header is the only check. -/
theorem original_byte_advisory (H : Sha256) (target : Option (List Byte)) (targetOpens : Bool)
    (l1 l2 l3 : Text) (recs recs' : List DiffRecord)
    (h1 : '\n' ∉ l1) (h2 : '\n' ∉ l2) (h3 : '\n' ∉ l3)
    (hsame : recs.map (fun r => (r.offset, r.modifiedByte))
      = recs'.map (fun r => (r.offset, r.modifiedByte))) :
    ApplyPatchFile H target targetOpens (some (textOfLines [l1, l2, l3] ++ dataLines recs))
      = ApplyPatchFile H target targetOpens
          (some (textOfLines [l1, l2, l3] ++ dataLines recs')) := by
  have hh := dataStream_three_lines l1 l2 l3 (dataLines recs) h1 h2 h3
  have hh' := dataStream_three_lines l1 l2 l3 (dataLines recs') h1 h2 h3
  have hr : recordedHash (textOfLines [l1, l2, l3] ++ dataLines recs)
      = recordedHash (textOfLines [l1, l2, l3] ++ dataLines recs') := by
    simp only [recordedHash, hh.1, hh'.1]
  have hentries : ∀ rs : List DiffRecord,
      dataEntries (textOfLines [l1, l2, l3] ++ dataLines rs) = rs.map dataLineText := by
    intro rs
    simp only [dataEntries, (dataStream_three_lines l1 l2 l3 (dataLines rs) h1 h2 h3).2,
      Bool.or_self, Bool.false_eq_true, if_false, splitLines_dataLines]
  have hf : List.Forall₂ (fun l l' => parseEntry l = parseEntry l')
      (recs.map dataLineText) (recs'.map dataLineText) := by
    clear hh hh' hr hentries
    induction recs generalizing recs' with
    | nil =>
      cases recs' with
      | nil => exact .nil
      | cons r rs => simp at hsame
    | cons r rs ih =>
      cases recs' with
      | nil => simp at hsame
      | cons r' rs' =>
        simp only [List.map_cons, List.cons.injEq, Prod.mk.injEq] at hsame
        exact .cons (parseEntry_dataLineText_congr r r' hsame.1.1 hsame.1.2) (ih rs' hsame.2)
  rw [ApplyPatchFile_eq, ApplyPatchFile_eq, hr, hentries, hentries]
  cases recordedHash (textOfLines [l1, l2, l3] ++ dataLines recs') with
  | none => rfl
  | some h =>
    simp only []
    split
    · rfl
    · cases target with
      | none => rfl
      | some bytes =>
        cases targetOpens with
        | false => rfl
        | true => exact runEntries_congr _ _ hf _ _

set_option maxRecDepth 100000 in
theorem original_byte_advisory_witness :
    ApplyPatchFile toySha (some abcd) true
        (some (textOfLines ["PATCH FILE".toList,
          "Original File Hash: 040a000000000000000000000000000000000000000000000000000000000000".toList,
          "--------------------------------------------------".toList]
          ++ dataLines [⟨1, 0x42, 0x5A⟩]))
      = ApplyPatchFile toySha (some abcd) true
        (some (textOfLines ["PATCH FILE".toList,
          "Original File Hash: 040a000000000000000000000000000000000000000000000000000000000000".toList,
          "--------------------------------------------------".toList]
          ++ dataLines [⟨1, 0xFF, 0x5A⟩]))
      ∧ ApplyPatchFile toySha (some abcd) true
        (some (textOfLines ["PATCH FILE".toList,
          "Original File Hash: 040a000000000000000000000000000000000000000000000000000000000000".toList,
          "--------------------------------------------------".toList]
          ++ dataLines [⟨1, 0xFF, 0x5A⟩]))
        = ⟨.applied 1, some azcd, none⟩ :=
  ⟨original_byte_advisory toySha (some abcd) true _ _ _ [⟨1, 0x42, 0x5A⟩] [⟨1, 0xFF, 0x5A⟩]
    (by decide) (by decide) (by decide) rfl, by decide⟩

set_option maxRecDepth 100000 in
theorem hexByte_eq_spec : ∀ b : Byte, hexByte b = specHexByte b := by
  decide

set_option maxRecDepth 100000 in
theorem unhex_hexByte : ∀ b : Byte, unhexString (specHexByte b) = [b] := by
  decide

theorem hexString_eq_spec (l : List Byte) : hexString l = (l.map specHexByte).flatten := by
  induction l with
  | nil => rfl
  | cons b bs ih => simp only [hexString, hexByte_eq_spec, ih, List.map_cons, List.flatten_cons]

theorem unhex_hexString (l : List Byte) : unhexString (hexString l) = l := by
  induction l with
  | nil => rfl
  | cons b bs ih =>
    have hb := unhex_hexByte b
    simp only [hexString, hexByte_eq_spec, specHexByte, List.cons_append, List.nil_append,
      unhexString, List.cons.injEq] at hb ⊢
    exact ⟨hb.1, ih⟩

/-- C15. Digest text form: the hexadecimal conversion of a 32-byte hash value gives 64
characters, two lowercase digits per byte in byte order (high digit first, zero padded, so
`0x0f` gives "0f"); distinct hash values give distinct texts; and `CalculateFileHash` returns
the empty string exactly when the file cannot be opened. -/
theorem digest_text_form (H : Sha256) (file : Option (List Byte)) (d d' : List Byte)
    (hd : d.length = 32) :
    (hexString d).length = 64
      ∧ hexString d = (d.map specHexByte).flatten
      ∧ hexByte 0x0f = "0f".toList
      ∧ (hexString d = hexString d' → d = d')
      ∧ (CalculateFileHash H file = [] ↔ file = none) := by
  refine ⟨by rw [hexString_length, hd], hexString_eq_spec d, by decide, ?_, ?_⟩
  · intro h
    have := congrArg unhexString h
    rwa [unhex_hexString, unhex_hexString] at this
  · cases file with
    | none => simp [CalculateFileHash]
    | some bytes => simp [CalculateFileHash_ne_nil]

set_option maxRecDepth 100000 in
theorem digest_text_form_witness :
    (toySha.final abcd).val.length = 32
      ∧ hexString (toySha.final abcd).val
        = "040a000000000000000000000000000000000000000000000000000000000000".toList :=
  ⟨(toySha.final abcd).property,
    ((digest_text_form toySha none (toySha.final abcd).val [] (toySha.final abcd).property).2.1).trans
      (by decide)⟩

theorem parseEntry_offset_out_of_range (r : DiffRecord) (h : 2 ^ 31 ≤ r.offset) :
    parseEntry (dataLineText r) = .error .outOfRange := by
  have h1 : stoi (' ' :: showNat r.offset) = .outOfRange := by
    rw [stoi_blank_digits (showNat r.offset) (toDigits_ne_nil 10 _) (showNat_isDigit _),
      digitsValue_showNat]
    rw [if_pos]
    have : (2 : Int) ^ 31 ≤ (r.offset : Int) := by exact_mod_cast h
    omega
  simp only [parseEntry, splitEntry_dataLineText, h1]

/-- C19. Offset width: the generator renders the `size_t` counter in decimal and the applier
converts that text with `std::stoi` to an `int`: below `2 ^ 31` the conversion gives the offset
back and the edit is issued; from `2 ^ 31` on it throws `std::out_of_range`, the run is
terminated at this line and the edit is not written. -/
theorem offset_width_mismatch (r : DiffRecord) (rest prev : Text) (f : FStream)
    (fuel n : Nat) :
    stoi (' ' :: showNat r.offset)
        = (if r.offset < 2 ^ 31 then .ok (r.offset : Int) else .outOfRange)
      ∧ parseEntry (dataLineText r)
        = (if r.offset < 2 ^ 31 then .ok ((r.offset : Int), r.modifiedByte)
          else .error .outOfRange)
      ∧ applyLoop (fuel + 1) ⟨dataLine r ++ rest, false, false⟩ prev f n
        = (if r.offset < 2 ^ 31 then
            applyLoop fuel ⟨rest, false, false⟩ (dataLineText r)
              ((f.seekp (r.offset : Int)).put r.modifiedByte) (n + 1)
          else ⟨.terminated .outOfRange n, some f.disk, f.pending⟩) := by
  have e : dataLine r ++ rest = dataLineText r ++ '\n' :: rest := by simp [dataLine]
  have hs : stoi (' ' :: showNat r.offset)
      = (if (2 : Int) ^ 31 - 1 < (r.offset : Int) then .outOfRange else .ok (r.offset : Int)) := by
    rw [stoi_blank_digits (showNat r.offset) (toDigits_ne_nil 10 _) (showNat_isDigit _),
      digitsValue_showNat]
  by_cases h : r.offset < 2 ^ 31
  · have hi : ¬ ((2 : Int) ^ 31 - 1 < (r.offset : Int)) := by
      have : (r.offset : Int) < 2 ^ 31 := by exact_mod_cast h
      omega
    rw [hs, if_neg hi, if_pos h, if_pos h, if_pos h, e,
      applyLoop_line fuel _ rest prev f n (newline_not_mem_dataLineText r),
      parseEntry_dataLineText r h]
    exact ⟨rfl, rfl, rfl⟩
  · have hge : 2 ^ 31 ≤ r.offset := Nat.le_of_not_lt h
    have hi : (2 : Int) ^ 31 - 1 < (r.offset : Int) := by
      have : (2 : Int) ^ 31 ≤ (r.offset : Int) := by exact_mod_cast hge
      omega
    rw [hs, if_pos hi, if_neg h, if_neg h, if_neg h, e,
      applyLoop_line fuel _ rest prev f n (newline_not_mem_dataLineText r),
      parseEntry_offset_out_of_range r hge]
    exact ⟨rfl, rfl, rfl⟩

set_option maxRecDepth 100000 in
/-- C17, the code at a failing input.  The original file "ABCD" is readable, the modified
file cannot be opened and the output path, which holds nothing, can be opened: the run ends
at the failed open of the comparison and leaves at the output path a patch file made of the
three header lines. -/
theorem header_only_patch_left :
    GeneratePatchFile toySha zeroJunk zeroJunk (some abcd) none true none
      = ⟨.compareOpenFailed, some
          ("PATCH FILE\n" ++
            "Original File Hash: 040a000000000000000000000000000000000000000000000000000000000000\n"
            ++ "--------------------------------------------------\n").toList⟩ := by
  decide

/-- Whatever the files, a run whose comparison cannot open the modified file leaves the
header lines at the output path. -/
theorem GeneratePatchFile_modified_missing (H : Sha256) (jo jm : Nat → Byte) (O : List Byte)
    (old : Option Text) :
    GeneratePatchFile H jo jm (some O) none true old
      = ⟨.compareOpenFailed, some (patchHeader (CalculateFileHash H (some O)))⟩ := by
  simp [GeneratePatchFile, CalculateFileHash_ne_nil]

theorem diffLoop_append (jo jm : Nat → Byte) (O1 : List Byte) :
    ∀ (M1 O2 M2 : List Byte) (offset : Nat), O1.length = M1.length →
      diffLoop jo jm (O1 ++ O2) (M1 ++ M2) offset
        = diffLoop jo jm O1 M1 offset ++ diffLoop jo jm O2 M2 (offset + O1.length) := by
  induction O1 with
  | nil =>
    intro M1 O2 M2 offset h
    have : M1 = [] := List.length_eq_zero.1 h.symm
    subst this
    simp [diffLoop, diffModifiedRest]
  | cons o os ih =>
    intro M1 O2 M2 offset h
    cases M1 with
    | nil => simp at h
    | cons m ms =>
      have hl : os.length = ms.length := by simpa using h
      rw [List.cons_append, List.cons_append, diffLoop, diffLoop, ih ms O2 M2 (offset + 1) hl,
        List.append_assoc, List.length_cons, Nat.add_assoc, Nat.add_comm 1]

theorem diffOriginalRest_offset_lt (jm : Nat → Byte) (os : List Byte) : ∀ offset,
    ∀ r ∈ diffOriginalRest jm os offset, r.offset < offset + os.length := by
  induction os with
  | nil => intro offset r hr; simp [diffOriginalRest] at hr
  | cons o os ih =>
    intro offset r hr
    simp only [diffOriginalRest, List.mem_append] at hr
    rcases hr with hr | hr
    · rw [compareBytes_offset _ _ _ r hr]; simp
    · have := ih (offset + 1) r hr
      simp only [List.length_cons]; omega

theorem diffModifiedRest_offset_lt (jo : Nat → Byte) (ms : List Byte) : ∀ offset,
    ∀ r ∈ diffModifiedRest jo ms offset, r.offset < offset + ms.length := by
  induction ms with
  | nil => intro offset r hr; simp [diffModifiedRest] at hr
  | cons m ms ih =>
    intro offset r hr
    simp only [diffModifiedRest, List.mem_append] at hr
    rcases hr with hr | hr
    · rw [compareBytes_offset _ _ _ r hr]; simp
    · have := ih (offset + 1) r hr
      simp only [List.length_cons]; omega

set_option maxRecDepth 100000 in
/-- C18 (counterexample). Original "A", modified "AB", the uninitialised locals keeping the
last byte read: the loop writes a record at offset 1, the length of the shorter file.  And
whatever the uninitialised local holds, some one-byte extension of "A" gets such a record. -/
theorem record_past_shorter_file :
    diffLoop (staleJunk [0x41]) (staleJunk [0x41, 0x42]) [0x41] [0x41, 0x42] 0
        = [⟨1, 0x41, 0x42⟩]
      ∧ ¬ ((1 : Nat) < min ([0x41] : List Byte).length ([0x41, 0x42] : List Byte).length)
      ∧ ∀ jo jm : Nat → Byte, ∃ b : Byte, diffLoop jo jm [0x41] [0x41, b] 0 = [⟨1, jo 1, b⟩] := by
  refine ⟨by decide, by decide, ?_⟩
  intro jo jm
  refine ⟨jo 1 + 1, ?_⟩
  have hne : jo 1 ≠ jo 1 + 1 := by
    generalize jo 1 = x
    revert x
    decide
  simp [diffLoop, diffModifiedRest, compareBytes, hne]

theorem isOptionToken_eq (t : Text) : isOptionToken t = decide (t.head? = some '-') := by
  cases t with
  | nil => rfl
  | cons c cs =>
    by_cases hc : c = '-'
    · subst hc
      simp [isOptionToken]
    · cases cs with
      | nil => simp [isOptionToken, hc]
      | cons d ds => simp [isOptionToken, hc]

theorem matchOptions_no_value (strOpt : Text) (value : Option Text) (opts : List ParserOption)
    (h : ∀ o ∈ opts, o.bTakesValue = false) :
    (matchOptions strOpt value opts).2.2 = false
      ∧ ∀ o ∈ (matchOptions strOpt value opts).1, o.bTakesValue = false := by
  induction opts with
  | nil => simp [matchOptions]
  | cons o os ih =>
    have ho : o.bTakesValue = false := h o (List.mem_cons_self _ _)
    have ih1 := ih (fun x hx => h x (List.mem_cons_of_mem _ hx))
    simp only [matchOptions]
    split
    · refine ⟨ih1.1, ?_⟩
      intro x hx
      rcases List.mem_cons.1 hx with rfl | hx
      · exact ho
      · exact ih1.2 x hx
    · simp only [ho, Bool.false_eq_true, if_false]
      refine ⟨trivial, ?_⟩
      intro x hx
      rcases List.mem_cons.1 hx with rfl | hx
      · rfl
      · exact h x (List.mem_cons_of_mem _ hx)

theorem eraseIdx_append_length (pre : List Text) (t : Text) (ts : List Text) :
    (pre ++ t :: ts).eraseIdx pre.length = pre ++ ts := by
  induction pre with
  | nil => rfl
  | cons a pre ih => simp [List.eraseIdx, ih]

theorem getElem?_append_length (pre : List Text) (post : List Text) :
    (pre ++ post)[pre.length]? = post.head? := by
  induction pre with
  | nil => cases post <;> simp
  | cons a pre ih => simpa using ih

/-- The loop of `ParseOptions` when no option takes a value: with the tokens before the
iterator free of option tokens and enough fuel, what is left is the tokens that are not
option tokens. -/
theorem parseOptionsLoop_no_value (fuel : Nat) : ∀ (pre post : List Text)
    (opts : List ParserOption),
    (∀ o ∈ opts, o.bTakesValue = false) → (∀ t ∈ pre, isOptionToken t = false) →
    ((pre ++ post).length + 1) * ((pre ++ post).length + 1) ≤ fuel + pre.length →
    (parseOptionsLoop fuel (pre ++ post) pre.length opts).1
      = pre ++ post.filter (fun t => !isOptionToken t) := by
  induction fuel with
  | zero =>
    intro pre post opts _ _ hf
    exfalso
    have h1 : pre.length ≤ (pre ++ post).length := by simp
    nlinarith
  | succ k ih =>
    intro pre post opts ho hpre hf
    rw [parseOptionsLoop, getElem?_append_length]
    cases post with
    | nil => simp
    | cons t ts =>
      simp only [List.head?_cons]
      by_cases ht : isOptionToken t = true
      · simp only [ht, Bool.not_true, Bool.false_eq_true, if_false]
        have hm := matchOptions_no_value t (pre ++ t :: ts)[pre.length + 1]? opts ho
        simp only [hm.1, Bool.false_eq_true, if_false, eraseIdx_append_length]
        have := ih [] (pre ++ ts) _ hm.2 (by simp) (by
          simp only [List.nil_append, List.length_append, List.length_cons, List.length_nil,
            Nat.add_zero] at hf ⊢
          nlinarith)
        simp only [List.nil_append, List.length_nil] at this
        rw [this, List.filter_append, List.filter_cons]
        simp only [ht, Bool.not_true, Bool.false_eq_true, if_false]
        congr 1
        apply List.filter_eq_self.2
        intro x hx
        simp [hpre x hx]
      · have ht' : isOptionToken t = false := by simpa using ht
        simp only [ht', Bool.not_false, if_true]
        have := ih (pre ++ [t]) ts opts ho (by
          intro x hx
          rcases List.mem_append.1 hx with hx | hx
          · exact hpre x hx
          · rw [List.mem_singleton.1 hx]; exact ht') (by
          simp only [List.append_assoc, List.singleton_append, List.length_append,
            List.length_cons, List.length_nil] at hf ⊢
          omega)
        simp only [List.append_assoc, List.singleton_append, List.length_append,
          List.length_singleton] at this
        rw [this, List.filter_cons]
        simp [ht']

theorem ParseOptions_no_value (p : CommandLineParser)
    (h : ∀ o ∈ p.m_vecOptions, o.bTakesValue = false) :
    p.ParseOptions.m_vecProvidedArguments = positionalTokens p.m_vecProvidedArguments
      ∧ p.ParseOptions.m_vecArguments = p.m_vecArguments := by
  refine ⟨?_, rfl⟩
  have := parseOptionsLoop_no_value
    ((p.m_vecProvidedArguments.length + 1) * (p.m_vecProvidedArguments.length + 1))
    [] p.m_vecProvidedArguments p.m_vecOptions h (by simp) (by simp)
  simp only [List.nil_append, List.length_nil] at this
  simp only [CommandLineParser.ParseOptions, this, positionalTokens]
  congr 1
  funext t
  rw [isOptionToken_eq]
  simp

theorem bindArguments_eq_zipWith (args : List ParserArgument) : ∀ (provided : List Text),
    args.length ≤ provided.length →
    bindArguments args provided
      = List.zipWith (fun a v => { a with strValue := v }) args provided := by
  induction args with
  | nil => intro provided _; rfl
  | cons a as ih =>
    intro provided h
    cases provided with
    | nil => simp at h
    | cons v vs =>
      simp only [bindArguments, List.zipWith_cons_cons, List.cons.injEq, true_and]
      exact ih vs (by simpa using h)

/-- C20. Positional binding when no registered option takes a value: `ParseOptions` leaves
exactly the tokens that do not begin with '-', in their order; `Parse` returns `false` exactly
when fewer of them are left than positional arguments are registered, binding nothing;
otherwise the arguments take, in registration order, the first tokens left, and the surplus
tokens are dropped. -/
theorem positional_binding (p : CommandLineParser)
    (h : ∀ o ∈ p.m_vecOptions, o.bTakesValue = false) :
    p.ParseOptions.m_vecProvidedArguments = positionalTokens p.m_vecProvidedArguments
      ∧ p.Parse.1
        = decide (p.m_vecArguments.length ≤ (positionalTokens p.m_vecProvidedArguments).length)
      ∧ p.Parse.2.m_vecArguments
        = (if p.m_vecArguments.length ≤ (positionalTokens p.m_vecProvidedArguments).length then
            List.zipWith (fun a v => { a with strValue := v }) p.m_vecArguments
              (positionalTokens p.m_vecProvidedArguments)
          else p.m_vecArguments)
      ∧ p.Parse.2.m_vecProvidedArguments
        = (if p.m_vecArguments.length ≤ (positionalTokens p.m_vecProvidedArguments).length then []
          else positionalTokens p.m_vecProvidedArguments) := by
  obtain ⟨h1, h2⟩ := ParseOptions_no_value p h
  refine ⟨h1, ?_⟩
  unfold CommandLineParser.Parse CommandLineParser.ParseArguments
  rw [h1, h2]
  by_cases hle : p.m_vecArguments.length ≤ (positionalTokens p.m_vecProvidedArguments).length
  · have hgt : ¬ (p.m_vecArguments.length
        > (positionalTokens p.m_vecProvidedArguments).length) := by omega
    rw [if_neg hgt, if_pos hle, if_pos hle]
    exact ⟨by simp [hle], bindArguments_eq_zipWith _ _ hle, rfl⟩
  · have hgt : p.m_vecArguments.length
        > (positionalTokens p.m_vecProvidedArguments).length := by omega
    rw [if_pos hgt, if_neg hle, if_neg hle]
    exact ⟨by simp [hle], h2, h1⟩

set_option maxRecDepth 100000 in
theorem positional_binding_witness :
    exampleParser.Parse.1 = true
      ∧ exampleParser.Parse.2.m_vecArguments.map (·.strValue)
        = ["a".toList, "b".toList, "c".toList]
      ∧ exampleParser.Parse.2.m_vecProvidedArguments = [] :=
  ⟨(positional_binding exampleParser (by decide)).2.1.trans (by decide),
    (congrArg (List.map (·.strValue))
      (positional_binding exampleParser (by decide)).2.2.1).trans (by decide),
    (positional_binding exampleParser (by decide)).2.2.2.trans (by decide)⟩

theorem runMain_exitCode (parser : CommandLineParser) (names : List Text) :
    (runMain parser names).exitCode = if parser.Parse.1 = true then EXIT_SUCCESS else EXIT_FAILURE := by
  unfold runMain
  simp only []
  by_cases h : parser.Parse.1 = false
  · rw [if_pos h]
    simp [h]
  · have ht : parser.Parse.1 = true := by simpa using h
    rw [if_neg h, if_pos ht]
    split <;> rfl

/-- The exit code of the generator only depends on the number of tokens that do not begin
with '-': it is `EXIT_FAILURE` when fewer than three are given, with or without `-h`. -/
theorem GenPatch_main_exitCode (argv : List Text) :
    (GenPatch.main argv).exitCode
      = if 3 ≤ (positionalTokens (argv.drop 1)).length then EXIT_SUCCESS else EXIT_FAILURE := by
  unfold GenPatch.main
  simp only []
  rw [runMain_exitCode, (positional_binding _ (by
    intro o ho
    simp only [CommandLineParser.AddArgument, CommandLineParser.AddOption,
      CommandLineParser.create, List.nil_append, List.cons_append, List.mem_cons,
      List.mem_singleton, List.not_mem_nil, or_false] at ho
    rcases ho with rfl | rfl <;> rfl)).2.1]
  simp [CommandLineParser.AddArgument, CommandLineParser.AddOption, CommandLineParser.create]

/-- The exit code of the applier only depends on the number of tokens that do not begin
with '-': it is `EXIT_FAILURE` when fewer than two are given, with or without `-h`. -/
theorem ApplyPatch_main_exitCode (argv : List Text) :
    (ApplyPatch.main argv).exitCode
      = if 2 ≤ (positionalTokens (argv.drop 1)).length then EXIT_SUCCESS else EXIT_FAILURE := by
  unfold ApplyPatch.main
  simp only []
  rw [runMain_exitCode, (positional_binding _ (by
    intro o ho
    simp only [CommandLineParser.AddArgument, CommandLineParser.AddOption,
      CommandLineParser.create, List.nil_append, List.cons_append, List.mem_cons,
      List.mem_singleton, List.not_mem_nil, or_false] at ho
    rcases ho with rfl | rfl <;> rfl)).2.1]
  simp [CommandLineParser.AddArgument, CommandLineParser.AddOption, CommandLineParser.create]

set_option maxRecDepth 100000 in
/-- C16, the code at a failing input.  On the command lines `GenPatch -h`,
`GenPatch --help`, `ApplyPatch -h` and `ApplyPatch --help target.bin` the call of `Parse`
fails for lack of positional arguments before `main` looks at `-h`: the help text is
printed, after the two error messages, and `main` returns `EXIT_FAILURE`.  With the
positional arguments present (`GenPatch -h a b c`) the help is printed, nothing is
generated and `main` returns `EXIT_SUCCESS`. -/
theorem help_alone_exits_with_failure :
    (GenPatch.main ["GenPatch".toList, "-h".toList]).exitCode = EXIT_FAILURE
      ∧ (GenPatch.main ["GenPatch".toList, "--help".toList]).exitCode = EXIT_FAILURE
      ∧ (ApplyPatch.main ["ApplyPatch".toList, "-h".toList]).exitCode = EXIT_FAILURE
      ∧ (ApplyPatch.main ["ApplyPatch".toList, "--help".toList, "target.bin".toList]).exitCode
        = EXIT_FAILURE
      ∧ EXIT_FAILURE ≠ 0
      ∧ (GenPatch.main ["GenPatch".toList, "-h".toList]).stderr = "Argument parse failed.\n".toList
      ∧ (GenPatch.main ["GenPatch".toList, "-h".toList]).stdout
        = ("Not enough arguments passed to fill the required arguments\n" ++
            "Options:\n" ++
            "  -h   --help         Display this help message and exit\n" ++
            "  -v   --verbose      Enable verbose mode\n" ++
            "Arguments:\n" ++
            "  original_file       The source file\n" ++
            "  modified_file       The file to compare to\n" ++
            "  output_file         The file to output the patch file to\n").toList
      ∧ (GenPatch.main ["GenPatch".toList, "-h".toList, "a".toList, "b".toList,
          "c".toList]).exitCode = EXIT_SUCCESS
      ∧ (GenPatch.main ["GenPatch".toList, "-h".toList, "a".toList, "b".toList,
          "c".toList]).call = none := by
  decide

theorem seekp_put_nonneg (f : FStream) (hf : f.fail = false) (o : Int) (h0 : 0 ≤ o) (b : Byte) :
    (f.seekp o).put b = ⟨f.flush.disk, o.toNat + 1, some (o.toNat, b), false⟩ := by
  have := seekp_put f hf o.toNat b
  rwa [Int.toNat_of_nonneg h0] at this

theorem flush_fail (f : FStream) : f.flush.fail = f.fail := by
  unfold FStream.flush; split <;> rfl

theorem flush_pending (f : FStream) : f.flush.pending = none := by
  unfold FStream.flush; split <;> simp [*]

theorem flush_flush (f : FStream) : f.flush.flush = f.flush := by
  have := flush_pending f
  generalize f.flush = g at this
  unfold FStream.flush
  simp [this]

theorem seekp_put_neg (f : FStream) (hf : f.fail = false) (o : Int) (h0 : o < 0) (b : Byte) :
    (f.seekp o).put b = { f.flush with fail := true } := by
  simp [FStream.seekp, FStream.put, hf, h0]

theorem putEdits_failed (es : List (Int × Byte)) : ∀ (f : FStream), f.fail = true →
    putEdits f es = f := by
  induction es with
  | nil => intro f _; rfl
  | cons e es ih =>
    intro f hf
    have : (f.seekp e.1).put e.2 = f := by simp [FStream.seekp, FStream.put, hf]
    rw [putEdits, this, ih f hf]

theorem putEdits_append (a b : List (Int × Byte)) : ∀ (f : FStream),
    putEdits f (a ++ b) = putEdits (putEdits f a) b := by
  induction a with
  | nil => intro f; rfl
  | cons e es ih =>
    intro f
    show putEdits ((f.seekp e.1).put e.2) (es ++ b)
      = putEdits (putEdits ((f.seekp e.1).put e.2) es) b
    exact ih _

/-- What has been written when the stream is closed: the edits before the first negative
offset. -/
theorem putEdits_flush_disk (es : List (Int × Byte)) : ∀ (f : FStream), f.fail = false →
    (putEdits f es).flush.disk = writeEdits f.flush.disk (writtenEdits es) := by
  induction es with
  | nil => intro f _; rfl
  | cons e es ih =>
    intro f hf
    by_cases h0 : 0 ≤ e.1
    · rw [putEdits, seekp_put_nonneg f hf e.1 h0, ih _ rfl]
      simp [writtenEdits, natEdits, List.takeWhile_cons, h0, writeEdits, FStream.flush]
    · have hneg : e.1 < 0 := by omega
      rw [putEdits, seekp_put_neg f hf e.1 hneg, putEdits_failed _ _ rfl]
      have : ({ f.flush with fail := true } : FStream).flush.disk = f.flush.disk := by
        have hp := flush_pending f
        generalize f.flush = g at hp
        unfold FStream.flush
        simp [hp]
      rw [this]
      simp [writtenEdits, natEdits, List.takeWhile_cons, h0, writeEdits]

theorem putEdits_nonneg_fail (es : List (Int × Byte)) : ∀ (f : FStream), f.fail = false →
    (∀ e ∈ es, 0 ≤ e.1) → (putEdits f es).fail = false := by
  induction es with
  | nil => intro f hf _; exact hf
  | cons e es ih =>
    intro f hf h
    rw [putEdits, seekp_put_nonneg f hf e.1 (h e (List.mem_cons_self _ _))]
    exact ih _ rfl (fun x hx => h x (List.mem_cons_of_mem _ hx))

theorem writtenEdits_nonneg (es : List (Int × Byte)) (h : ∀ e ∈ es, 0 ≤ e.1) :
    writtenEdits es = natEdits es := by
  unfold writtenEdits
  congr 1
  apply List.takeWhile_eq_self_iff.2
  intro e he
  simpa using h e he

/-- State of the file and of the stream buffer after edits without negative offset: all the
edits but the last are in the file, the last is in the buffer. -/
theorem putEdits_nonneg (es : List (Int × Byte)) (bytes : List Byte)
    (h : ∀ e ∈ es, 0 ≤ e.1) :
    (putEdits ⟨bytes, 0, none, false⟩ es).disk = writeEdits bytes (natEdits es.dropLast)
      ∧ (putEdits ⟨bytes, 0, none, false⟩ es).pending = (natEdits es).getLast? := by
  rcases List.eq_nil_or_concat es with rfl | ⟨pre, e, hes⟩
  · exact ⟨rfl, rfl⟩
  · rw [List.concat_eq_append] at hes
    subst hes
    have hpre : ∀ x ∈ pre, 0 ≤ x.1 := fun x hx => h x (List.mem_append_left _ hx)
    have he : 0 ≤ e.1 := h e (List.mem_append_right _ (List.mem_singleton_self _))
    have hf := putEdits_nonneg_fail pre ⟨bytes, 0, none, false⟩ rfl hpre
    have hd := putEdits_flush_disk pre ⟨bytes, 0, none, false⟩ rfl
    rw [writtenEdits_nonneg pre hpre] at hd
    rw [putEdits_append]
    simp only [putEdits]
    rw [seekp_put_nonneg _ hf e.1 he, hd]
    simp [natEdits, FStream.flush]

/-- State of the file and of the stream buffer after edits one of which has a negative
offset: the edits before the first negative offset are in the file, the buffer is empty. -/
theorem putEdits_negative (es : List (Int × Byte)) : ∀ (f : FStream), f.fail = false →
    (∃ e ∈ es, e.1 < 0) →
    (putEdits f es).disk = writeEdits f.flush.disk (writtenEdits es)
      ∧ (putEdits f es).pending = none := by
  induction es with
  | nil => intro f _ h; obtain ⟨e, he, _⟩ := h; simp at he
  | cons e es ih =>
    intro f hf h
    by_cases h0 : 0 ≤ e.1
    · have h' : ∃ x ∈ es, x.1 < 0 := by
        obtain ⟨x, hx, hlt⟩ := h
        rcases List.mem_cons.1 hx with rfl | hx
        · omega
        · exact ⟨x, hx, hlt⟩
      rw [putEdits, seekp_put_nonneg f hf e.1 h0]
      have := ih ⟨f.flush.disk, e.1.toNat + 1, some (e.1.toNat, e.2), false⟩ rfl h'
      rw [this.1, this.2]
      simp [writtenEdits, natEdits, List.takeWhile_cons, h0, writeEdits, FStream.flush]
    · have hneg : e.1 < 0 := by omega
      rw [putEdits, seekp_put_neg f hf e.1 hneg, putEdits_failed _ _ rfl]
      simp [writtenEdits, natEdits, List.takeWhile_cons, h0, writeEdits, flush_pending]

theorem stoi_invalid_iff (s : Text) :
    stoi s = .invalidArgument
      ↔ (afterSign (s.dropWhile isSpace)).takeWhile Char.isDigit = [] := by
  simp only [stoi]
  generalize List.dropWhile isSpace s = t
  have key : ∀ (p : Bool × Text), p.2 = afterSign t →
      ((if List.takeWhile Char.isDigit p.2 = [] then StoiResult.invalidArgument
        else if (if p.1 = true then -(digitsValue (List.takeWhile Char.isDigit p.2) : Int)
              else (digitsValue (List.takeWhile Char.isDigit p.2) : Int)) < -(2 : Int) ^ 31 ∨
            (2 : Int) ^ 31 - 1 < (if p.1 = true then
              -(digitsValue (List.takeWhile Char.isDigit p.2) : Int)
              else (digitsValue (List.takeWhile Char.isDigit p.2) : Int))
          then StoiResult.outOfRange
          else StoiResult.ok (if p.1 = true then
              -(digitsValue (List.takeWhile Char.isDigit p.2) : Int)
              else (digitsValue (List.takeWhile Char.isDigit p.2) : Int)))
        = StoiResult.invalidArgument
        ↔ List.takeWhile Char.isDigit (afterSign t) = []) := by
    intro p hp
    rw [hp]
    constructor
    · intro h
      by_contra hne
      rw [if_neg hne] at h
      have hno : ∀ (c : Prop) [Decidable c] (v : Int),
          (if c then StoiResult.outOfRange else StoiResult.ok v) ≠ .invalidArgument := by
        intro c _ v
        split <;> simp
      exact hno _ _ h
    · intro h
      rw [if_pos h]
  apply key
  unfold afterSign
  split
  · rfl
  · rfl
  · next h1 h2 =>
      split
      · exact (h1 _ rfl).elim
      · exact (h2 _ rfl).elim
      · rfl

/-- C5 (amended). On a patch file that passes the digest gate the data lines are applied in
file order as they are parsed; nothing is validated beforehand.  When the data lines parse up
to a first line on whose offset field `std::stoi` throws `std::invalid_argument` (the field
has no digit after its leading white space and one optional sign; a field that only begins
with digits, as in "Offset: 1x", is read as that number), the run is terminated by the
uncaught exception at that line, nothing of this line or of a later line is written, and the
edits of the lines before it have been issued on the target stream in order: when none of
their offsets is negative, all of them but the last have been written to the file and the last
is still in the stream buffer; when one of them is negative, exactly the edits before the
first negative offset have been written. -/
theorem bad_offset_ends_run (H : Sha256) (bytes : List Byte) (text : Text) (good : List Text)
    (edits : List (Int × Byte)) (bad tail : Text)
    (hrec : recordedHash text = some (CalculateFileHash H (some bytes)))
    (hbody : dataStream text = ⟨textOfLines good ++ bad ++ tail, false, false⟩)
    (hgood : List.Forall₂ (fun g e => '\n' ∉ g ∧ parseEntry g = .ok e) good edits)
    (hbad : '\n' ∉ bad) (hend : (tail = [] ∧ bad ≠ []) ∨ ∃ rest, tail = '\n' :: rest)
    (hoff : stoi (splitEntry bad).1 = .invalidArgument) :
    ApplyPatchFile H (some bytes) true (some text)
        = ⟨.terminated .invalidArgument good.length,
            some (putEdits ⟨bytes, 0, none, false⟩ edits).disk,
            (putEdits ⟨bytes, 0, none, false⟩ edits).pending⟩
      ∧ ((∀ e ∈ edits, 0 ≤ e.1) →
          (putEdits ⟨bytes, 0, none, false⟩ edits).disk
              = writeEdits bytes (natEdits edits.dropLast)
            ∧ (putEdits ⟨bytes, 0, none, false⟩ edits).pending = (natEdits edits).getLast?)
      ∧ ((∃ e ∈ edits, e.1 < 0) →
          (putEdits ⟨bytes, 0, none, false⟩ edits).disk = writeEdits bytes (writtenEdits edits)
            ∧ (putEdits ⟨bytes, 0, none, false⟩ edits).pending = none)
      ∧ (∀ s : Text, stoi s = .invalidArgument
          ↔ (afterSign (s.dropWhile isSpace)).takeWhile Char.isDigit = [])
      ∧ parseEntry "Offset: 1x, Original Byte: 66, Modified Byte: 89".toList
          = .ok ((1 : Int), (0x59 : Byte)) := by
  refine ⟨?_, putEdits_nonneg edits bytes, ?_, stoi_invalid_iff, rfl⟩
  · have hb : (getline (readHeader text).1 (readHeader text).2 '\n').1
        = ⟨textOfLines good ++ bad ++ tail, false, false⟩ := hbody
    simp only [ApplyPatchFile, hrec, ne_eq, not_true_eq_false, if_false, hb]
    rw [applyLoop_until_bad good edits _ _ bad tail _ 0 _ hgood hbad hend hoff]
    · simp
    · have := length_le_textOfLines good
      simp only [List.length_append]
      omega
  · intro h
    exact putEdits_negative edits ⟨bytes, 0, none, false⟩ rfl h

set_option maxRecDepth 100000 in
theorem bad_offset_ends_run_witness :
    ApplyPatchFile toySha (some abcd) true (some abcdBadOffsetPatch)
        = ⟨.terminated .invalidArgument 2, some [0x58, 0x42, 0x43, 0x44], some (1, 0x59)⟩
      ∧ [(0x58 : Byte), 0x42, 0x43, 0x44]
        = writeEdits abcd (natEdits ([((0 : Int), (0x58 : Byte)), (1, 0x59)]).dropLast) :=
  ⟨(bad_offset_ends_run toySha abcd abcdBadOffsetPatch
      ["Offset: 0, Original Byte: 65, Modified Byte: 88".toList,
        "Offset: 1, Original Byte: 66, Modified Byte: 89".toList]
      [(0, 0x58), (1, 0x59)]
      "Offset: x, Original Byte: 67, Modified Byte: 90".toList ['\n']
      (by decide) (by decide)
      (.cons ⟨by decide, rfl⟩ (.cons ⟨by decide, rfl⟩ .nil))
      (by decide) (Or.inr ⟨[], rfl⟩) (by decide)).1.trans (by decide),
    by decide⟩

theorem readHeader_two_lines (l1 l2 rest : Text) (h1 : '\n' ∉ l1) (h2 : '\n' ∉ l2) :
    readHeader (l1 ++ '\n' :: (l2 ++ '\n' :: rest)) = (⟨rest, false, false⟩, l2) := by
  simp only [readHeader, IStream.ofText]
  rw [getline_delim '\n' _ _ _ h1]
  simp only []
  rw [getline_delim '\n' _ _ _ h2]

/-- C6 (amended). `ApplyPatchFile` does not validate the magic line: on a patch file whose
first line ends with a newline the result does not depend on that line.  It does not check
the label of the digest line either: on a patch file whose first two lines end with a newline
the text compared with `CalculateFileHash` of the target is
`headerLine.substr(headerLine.find(':') + 2)` of the second line, that is the part of the line
from position `find(':') + 2` (in `size_t` arithmetic) when the line has a ':' and from
position 1 when it has none, `substr` throwing `std::out_of_range` when the position exceeds
the length of the line.  For every patch file, when this text is missing or differs from the
hash of the target, the patch is rejected (a hash mismatch is reported, or the run is
terminated by the exception) and no byte of the target is written. -/
theorem header_checks (H : Sha256) (target : Option (List Byte)) (targetOpens : Bool)
    (l1 l1' l2 rest text : Text) (h1 : '\n' ∉ l1) (h1' : '\n' ∉ l1') (h2 : '\n' ∉ l2)
    (hrec : recordedHash text ≠ some (CalculateFileHash H target)) :
    ApplyPatchFile H target targetOpens (some (l1 ++ '\n' :: rest))
        = ApplyPatchFile H target targetOpens (some (l1' ++ '\n' :: rest))
      ∧ recordedHash (l1 ++ '\n' :: (l2 ++ '\n' :: rest))
        = (if ':' ∈ l2 then
            (if (l2.indexOf ':' + 2) % 2 ^ 64 ≤ l2.length then
              some (l2.drop ((l2.indexOf ':' + 2) % 2 ^ 64)) else none)
          else (if 1 ≤ l2.length then some (l2.drop 1) else none))
      ∧ (ApplyPatchFile H target targetOpens (some text) = ⟨.hashMismatch, target, none⟩ ∨
        ApplyPatchFile H target targetOpens (some text)
          = ⟨.terminated .outOfRange 0, target, none⟩) := by
  refine ⟨?_, ?_, ?_⟩
  · simp only [ApplyPatchFile, recordedHash, readHeader_first_line l1 l1' rest h1 h1']
  · simp only [recordedHash, readHeader_two_lines l1 l2 rest h1 h2, findPlusTwo, substr,
      nposPlusTwo]
    by_cases hc : ':' ∈ l2
    · simp only [hc, if_true]
      split
      · rename_i hgt
        rw [if_neg (by omega)]
      · rename_i hgt
        rw [if_pos (by omega)]
    · simp only [hc, if_false]
      have e1 : (2 ^ 64 - 1 + 2) % 2 ^ 64 = 1 := by decide
      rw [e1]
      split
      · rename_i hgt
        rw [if_neg (by omega)]
      · rename_i hgt
        rw [if_pos (by omega)]
  · cases hr : recordedHash text with
    | none => right; simp [ApplyPatchFile, hr]
    | some h =>
      left
      have hne : h ≠ CalculateFileHash H target := by
        intro e; rw [hr, e] at hrec; exact hrec rfl
      simp [ApplyPatchFile, hr, hne]

set_option maxRecDepth 100000 in
theorem header_checks_witness :
    ApplyPatchFile toySha (some abcde) true (some ("PATCH FILE".toList ++ '\n' :: []))
        = ApplyPatchFile toySha (some abcde) true (some ("GARBAGE".toList ++ '\n' :: []))
      ∧ recordedHash ("GARBAGE".toList ++ '\n' :: ("x040a".toList ++ '\n' :: []))
        = some "040a".toList
      ∧ (ApplyPatchFile toySha (some abcde) true (some abcdPatch)
          = ⟨.hashMismatch, some abcde, none⟩ ∨
        ApplyPatchFile toySha (some abcde) true (some abcdPatch)
          = ⟨.terminated .outOfRange 0, some abcde, none⟩) :=
  ⟨(header_checks toySha (some abcde) true "PATCH FILE".toList "GARBAGE".toList
      "no label:x040a".toList [] abcdPatch (by decide) (by decide) (by decide) (by decide)).1,
    (header_checks toySha (some abcde) true "GARBAGE".toList "GARBAGE".toList
      "x040a".toList [] abcdPatch (by decide) (by decide) (by decide)
      (by decide)).2.1.trans (by decide),
    (header_checks toySha (some abcde) true "PATCH FILE".toList "GARBAGE".toList
      "no label:x040a".toList [] abcdPatch (by decide) (by decide) (by decide) (by decide)).2.2⟩

theorem diffModifiedRest_eq_filter (jo : Nat → Byte) (ms : List Byte) : ∀ offset,
    diffModifiedRest jo ms offset
      = ((List.range ms.length).filter (fun j => jo (offset + j) ≠ ms.getD j 0)).map
          (fun j => ⟨offset + j, jo (offset + j), ms.getD j 0⟩) := by
  induction ms with
  | nil => intro offset; rfl
  | cons m ms ih =>
    intro offset
    rw [diffModifiedRest, ih (offset + 1), List.length_cons, List.range_succ_eq_map,
      List.filter_cons, List.filter_map]
    have e1 : ((fun j => decide (jo (offset + j) ≠ (m :: ms).getD j 0)) ∘ Nat.succ)
        = (fun j => decide (jo (offset + 1 + j) ≠ ms.getD j 0)) := by
      funext j
      simp only [Function.comp, List.getD_cons_succ, Nat.succ_eq_add_one]
      rw [Nat.add_assoc, Nat.add_comm 1]
    have e2 : ((fun j => (⟨offset + j, jo (offset + j), (m :: ms).getD j 0⟩ : DiffRecord))
        ∘ Nat.succ) = (fun j => ⟨offset + 1 + j, jo (offset + 1 + j), ms.getD j 0⟩) := by
      funext j
      simp only [Function.comp, List.getD_cons_succ, Nat.succ_eq_add_one]
      rw [Nat.add_assoc, Nat.add_comm 1]
    rw [e1]
    by_cases hom : jo offset = m
    · simp only [compareBytes, hom, ne_eq, not_true_eq_false, if_false, List.nil_append,
        List.getD_cons_zero, Nat.add_zero, decide_False, Bool.false_eq_true, List.map_map]
      rw [e2]
    · simp only [compareBytes, ne_eq, hom, not_false_eq_true, if_true, List.getD_cons_zero,
        Nat.add_zero, decide_True, List.map_cons, List.map_map, List.singleton_append]
      rw [e2]

theorem diffOriginalRest_eq_filter (jm : Nat → Byte) (os : List Byte) : ∀ offset,
    diffOriginalRest jm os offset
      = ((List.range os.length).filter (fun j => os.getD j 0 ≠ jm (offset + j))).map
          (fun j => ⟨offset + j, os.getD j 0, jm (offset + j)⟩) := by
  induction os with
  | nil => intro offset; rfl
  | cons o os ih =>
    intro offset
    rw [diffOriginalRest, ih (offset + 1), List.length_cons, List.range_succ_eq_map,
      List.filter_cons, List.filter_map]
    have e1 : ((fun j => decide ((o :: os).getD j 0 ≠ jm (offset + j))) ∘ Nat.succ)
        = (fun j => decide (os.getD j 0 ≠ jm (offset + 1 + j))) := by
      funext j
      simp only [Function.comp, List.getD_cons_succ, Nat.succ_eq_add_one]
      rw [Nat.add_assoc, Nat.add_comm 1]
    have e2 : ∀ x : Byte, ((fun j => (⟨offset + j, (x :: os).getD j 0, jm (offset + j)⟩ :
        DiffRecord)) ∘ Nat.succ)
        = (fun j => ⟨offset + 1 + j, os.getD j 0, jm (offset + 1 + j)⟩) := by
      intro x
      funext j
      simp only [Function.comp, List.getD_cons_succ, Nat.succ_eq_add_one]
      rw [Nat.add_assoc, Nat.add_comm 1]
    rw [e1]
    by_cases hom : o = jm offset
    · simp only [compareBytes, hom, ne_eq, not_true_eq_false, if_false, List.nil_append,
        List.getD_cons_zero, Nat.add_zero, decide_False, Bool.false_eq_true, List.map_map]
      rw [e2]
    · simp only [compareBytes, ne_eq, hom, not_false_eq_true, if_true, List.getD_cons_zero,
        Nat.add_zero, decide_True, List.map_cons, List.map_map, List.singleton_append]
      rw [e2]

theorem getD_drop (l : List Byte) (k j : Nat) : (l.drop k).getD j 0 = l.getD (k + j) 0 := by
  rw [List.getD_eq_getElem?_getD, List.getD_eq_getElem?_getD, List.getElem?_drop]

/-- C18 (amended). When one file ends before the other the comparison does not stop: the loop
ends only once both streams have ended.  The records at the offsets below the length of the
shorter file are exactly the differences of the two files there; then, at every offset from
the length of the shorter file to the end of the longer one, the byte of the longer file is
compared with the local variable that the failed `get` left unassigned (of value `jo i` or
`jm i` at offset `i`), and a record is written exactly when the two differ. -/
theorem records_of_unequal_lengths (jo jm : Nat → Byte) (O M : List Byte) :
    diffLoop jo jm O M 0
      = expectedRecords (O.take (min O.length M.length)) (M.take (min O.length M.length))
        ++ (if O.length ≤ M.length then pastOriginalEnd jo M O.length
          else pastModifiedEnd jm O M.length) := by
  have hO := List.take_append_drop (min O.length M.length) O
  have hM := List.take_append_drop (min O.length M.length) M
  have hl : (O.take (min O.length M.length)).length = (M.take (min O.length M.length)).length := by
    simp only [List.length_take]; omega
  have hk : (O.take (min O.length M.length)).length = min O.length M.length := by
    simp only [List.length_take]; omega
  have hexp : diffLoop jo jm (O.take (min O.length M.length)) (M.take (min O.length M.length)) 0
      = expectedRecords (O.take (min O.length M.length)) (M.take (min O.length M.length)) := by
    rw [diffLoop_eq_filter jo jm _ _ 0 hl]
    simp [expectedRecords]
  have key := diffLoop_append jo jm (O.take (min O.length M.length))
    (M.take (min O.length M.length)) (O.drop (min O.length M.length))
    (M.drop (min O.length M.length)) 0 hl
  rw [hO, hM, hexp, hk, Nat.zero_add] at key
  rw [key]
  congr 1
  by_cases hle : O.length ≤ M.length
  · have hmin : min O.length M.length = O.length := by omega
    rw [if_pos hle, hmin, List.drop_length, diffLoop, diffModifiedRest_eq_filter]
    simp only [pastOriginalEnd, List.length_drop, getD_drop]
  · have hmin : min O.length M.length = M.length := by omega
    rw [if_neg hle, hmin, List.drop_length]
    have hO2 : ∀ l : List Byte, diffLoop jo jm l [] M.length = diffOriginalRest jm l M.length := by
      intro l
      cases l with
      | nil => rfl
      | cons o os => rfl
    rw [hO2, diffOriginalRest_eq_filter]
    simp only [pastModifiedEnd, List.length_drop, getD_drop]

theorem ApplyPatchFile_offset_out_of_range (H : Sha256) (bytes : List Byte) (r : DiffRecord)
    (rs : List DiffRecord) (h : 2 ^ 31 ≤ r.offset) :
    ApplyPatchFile H (some bytes) true
        (some (patchHeader (CalculateFileHash H (some bytes)) ++ dataLines (r :: rs)))
      = ⟨.terminated .outOfRange 0, some bytes, none⟩ := by
  have hn := newline_not_mem_CalculateFileHash H (some bytes)
  rw [ApplyPatchFile_eq_runEntries H bytes _ (recordedHash_patchHeader _ _ hn),
    dataEntries_generated _ _ hn, List.map_cons, runEntries,
    parseEntry_offset_out_of_range r h]

theorem lt_length_append_singleton (p : List Byte) (a : Byte) (n : Nat) (h : p.length = n) :
    n < (p ++ [a]).length := by
  simp [h]

theorem getElem?_append_singleton (p : List Byte) (a : Byte) (n : Nat) (h : p.length = n) :
    (p ++ [a])[n]? = some a := by
  subst h
  simp

/-- C11, the code at a failing input.  The target holds `2 ^ 31` zero bytes followed by one
zero byte and the patch carries its digest and one data line, for the offset `2 ^ 31`, which
is below the length of the file, and the modified byte 1.  The run is terminated by the
`std::out_of_range` of `std::stoi` before any write: the byte at the named offset is still 0,
not the modified byte of the edit. -/
theorem edit_past_int_range_not_written :
    2 ^ 31 < (zeros31 ++ [0]).length
      ∧ ApplyPatchFile toySha (some (zeros31 ++ [0])) true
          (some (patchHeader (CalculateFileHash toySha (some (zeros31 ++ [0])))
            ++ dataLines [⟨2 ^ 31, 0, 1⟩]))
        = ⟨.terminated .outOfRange 0, some (zeros31 ++ [0]), none⟩
      ∧ (zeros31 ++ [0])[2 ^ 31]? = some 0 :=
  ⟨lt_length_append_singleton zeros31 0 (2 ^ 31) (List.length_replicate _ _),
    ApplyPatchFile_offset_out_of_range toySha (zeros31 ++ [0]) ⟨2 ^ 31, 0, 1⟩ []
      (Nat.le_refl _),
    getElem?_append_singleton zeros31 0 (2 ^ 31) (List.length_replicate _ _)⟩

set_option maxRecDepth 100000 in
/-- C13, the code at a failing input.  Two patches for "ABCD" hold the same three data
lines, for the pairwise distinct offsets 0, 1 and `2 ^ 31`, in two orders.  With the line for
`2 ^ 31` last the run is terminated at it after the edit at offset 0 reached the file (the
edit at offset 1 is still in the stream buffer); with that line first the run is terminated
before any write.  The two final files differ. -/
theorem order_matters_past_int_range :
    ApplyPatchFile toySha (some abcd) true (some abcdBigOffsetLast)
        = ⟨.terminated .outOfRange 2, some [0x58, 0x42, 0x43, 0x44], some (1, 0x59)⟩
      ∧ ApplyPatchFile toySha (some abcd) true (some abcdBigOffsetFirst)
        = ⟨.terminated .outOfRange 0, some abcd, none⟩
      ∧ (ApplyPatchFile toySha (some abcd) true (some abcdBigOffsetLast)).target
        ≠ (ApplyPatchFile toySha (some abcd) true (some abcdBigOffsetFirst)).target
      ∧ dataEntries abcdBigOffsetFirst
        = [(dataEntries abcdBigOffsetLast).getD 2 [], (dataEntries abcdBigOffsetLast).getD 0 [],
            (dataEntries abcdBigOffsetLast).getD 1 []] := by
  decide

end FilePatcher
